import Mathlib

/-!
Verification of pombump's core against its natural-language specification.

The definitions below are a shallow embedding of the Go sources of
chainguard-dev/pombump: `pkg/patch.go` (PatchProject), the analyzer and
strategy engine (AnalyzeProject, analyzeDependency, PatchStrategy,
detectVersionConflicts, findBOMForGroup, calculateOptimalBOMVersion),
`pkg/validation.go` (ValidatePatch) and the comment-preserving rewriter
(insertComments).  Go pointers become `Option`, Go maps become association
lists (Go's map iteration order is unspecified; every property proved here
is insensitive to that order, and where an order is needed the embedding
uses first-insertion order), Go slices become `List`, and a Go `error`
return becomes `Except String`.  A Go nil-pointer dereference (a panic) is
modelled as an `Except.error`.
-/

namespace Pombump

/-- Patch (pkg/patch.go): a requested dependency version change.
Field names follow the Go struct GroupID/ArtifactID/Version/Scope/Type. -/
structure Patch where
  groupID : String
  artifactID : String
  version : String
  scope : String
  type : String
deriving Repr, DecidableEq

/-- Dependency (github.com/chainguard-dev/gopom): the five fields pombump
reads or writes.  The further gopom fields (classifier, exclusions, ...)
are never touched by the code under verification and are omitted. -/
structure Dependency where
  groupID : String
  artifactID : String
  version : String
  scope : String
  type : String
deriving Repr, DecidableEq

/-- DependencyManagement (gopom): `Dependencies *[]Dependency`.  The
pointer is an `Option`; a present-but-empty list is `some []`, a nil
pointer is `none`. -/
structure DependencyManagement where
  dependencies : Option (List Dependency)
deriving Repr, DecidableEq

/-- Project (gopom): the three fields pombump's core reads or writes
(`Dependencies *[]Dependency`, `DependencyManagement *DependencyManagement`,
`Properties *Properties`).  `Properties.Entries map[string]string` is
modelled as an association list. -/
structure Project where
  dependencies : Option (List Dependency)
  dependencyManagement : Option DependencyManagement
  properties : Option (List (String × String))
deriving Repr, DecidableEq

/-- Association-list lookup, modelling a read `m[k]` of a Go
`map[string]v`. -/
def lookupStr {α : Type} (m : List (String × α)) (k : String) : Option α :=
  (m.find? (fun kv => kv.1 == k)).map (fun kv => kv.2)

/-- Association-list write `m[k] = v` of a Go map: overwrite the entry if
the key is present, append it otherwise. -/
def upsertStr {α : Type} (m : List (String × α)) (k : String) (v : α) :
    List (String × α) :=
  if m.any (fun kv => kv.1 == k) then
    m.map (fun kv => if kv.1 == k then (k, v) else kv)
  else m ++ [(k, v)]

/-- The match test of PatchProject (patch.go, both placement loops):
`dep.ArtifactID == patch.ArtifactID && dep.GroupID == patch.GroupID`. -/
def matchesPatch (dep : Dependency) (p : Patch) : Bool :=
  dep.artifactID == p.artifactID && dep.groupID == p.groupID

/-- One placement loop of PatchProject over one dependency: every patch in
list order whose identity matches overwrites the entry's version field in
place (the last matching patch's version ends up stored); scope and type
are left untouched. -/
def overwriteVersions (patches : List Patch) (dep : Dependency) : Dependency :=
  (patches.filter (fun p => matchesPatch dep p)).foldl
    (fun d p => { d with version := p.version }) dep

/-- The `missingDeps` working set of PatchProject: a Go map keyed by the
full Patch value (`missingDeps[p] = p`), modelled as a duplicate-free list
in first-insertion order.  Re-inserting an already-present full value is a
no-op (key equals value). -/
def dedupPatches (patches : List Patch) : List Patch :=
  patches.foldl (fun m p => if m.any (fun q => decide (q = p)) then m else m ++ [p]) []

/-- A missing patch appended to DependencyManagement.Dependencies
(patch.go lines 134-140): groupId/artifactId/version/scope/type verbatim. -/
def patchToDependency (p : Patch) : Dependency :=
  { groupID := p.groupID, artifactID := p.artifactID, version := p.version,
    scope := p.scope, type := p.type }

/-- Builds the Go map value `map[string]string` from its entries, read in
list order (models a map literal handed to `&gopom.Properties{Entries: m}`). -/
def canonProps (entries : List (String × String)) : List (String × String) :=
  entries.foldl (fun m kv => upsertStr m kv.1 kv.2) []

/-- The property stage of PatchProject (patch.go lines 142-154): when the
project has no Properties and there are property patches, the patch map
becomes the Properties; otherwise every patch is an unconditional
overwrite `project.Properties.Entries[k] = v`. -/
def applyPropertyPatches (props : Option (List (String × String)))
    (propertyPatches : List (String × String)) : Option (List (String × String)) :=
  match props with
  | none =>
      if propertyPatches.isEmpty then none
      else some (canonProps propertyPatches)
  | some entries => some (propertyPatches.foldl (fun m kv => upsertStr m kv.1 kv.2) entries)

/-- PatchProject (pkg/patch.go lines 66-156).  Stages, in source order:
nil-project check; build the `missingDeps` set from all patches; overwrite
matching direct dependencies in place, removing matched patches from the
set; overwrite matching dependency-management entries in place (note: this
loop runs over ALL patches, not only those unmatched in direct
dependencies), removing matched patches; append the remaining missing
patches to DependencyManagement.Dependencies; apply property patches.
Two Go panics are modelled as errors: when DependencyManagement is non-nil
but its Dependencies pointer is nil, the loop `for i, dep := range
*project.DependencyManagement.Dependencies` dereferences nil; and when
DependencyManagement was nil and missing patches exist, the code creates
`&gopom.DependencyManagement{}` (whose Dependencies pointer is nil) and the
append `*project.DependencyManagement.Dependencies = append(...)`
dereferences nil. -/
def patchProject (project : Option Project) (patches : List Patch)
    (propertyPatches : List (String × String)) : Except String Project :=
  match project with
  | none => .error "project is nil"
  | some proj =>
    let missing0 := dedupPatches patches
    let deps' := proj.dependencies.map (fun deps => deps.map (overwriteVersions patches))
    let missing1 :=
      match proj.dependencies with
      | none => missing0
      | some deps => missing0.filter (fun m => !(deps.any (fun d => matchesPatch d m)))
    match proj.dependencyManagement with
    | some dm =>
      match dm.dependencies with
      | none => .error "nil pointer dereference: DependencyManagement.Dependencies"
      | some dmDeps =>
        let dmDeps' := dmDeps.map (overwriteVersions patches)
        let missing2 := missing1.filter (fun m => !(dmDeps.any (fun d => matchesPatch d m)))
        .ok { dependencies := deps',
              dependencyManagement :=
                some { dependencies := some (dmDeps' ++ missing2.map patchToDependency) },
              properties := applyPropertyPatches proj.properties propertyPatches }
    | none =>
      if missing1.isEmpty then
        .ok { dependencies := deps', dependencyManagement := none,
              properties := applyPropertyPatches proj.properties propertyPatches }
      else .error "nil pointer dereference: DependencyManagement.Dependencies"

/-! ### Helper lemmas about the patch applier -/

theorem mem_dedupPatchesAux (ps : List Patch) (acc : List Patch) (p : Patch) :
    p ∈ ps.foldl (fun m q => if m.any (fun r => decide (r = q)) then m else m ++ [q]) acc ↔
      p ∈ acc ∨ p ∈ ps := by
  induction ps generalizing acc with
  | nil => simp
  | cons q rest ih =>
    simp only [List.foldl_cons]
    by_cases hq : acc.any (fun r => decide (r = q)) = true
    · rw [if_pos hq, ih]
      simp only [List.any_eq_true, decide_eq_true_eq] at hq
      obtain ⟨r, hr, rfl⟩ := hq
      constructor
      · rintro (h | h)
        · exact Or.inl h
        · exact Or.inr (List.mem_cons_of_mem _ h)
      · rintro (h | h)
        · exact Or.inl h
        · rcases List.mem_cons.mp h with h | h
          · exact Or.inl (h ▸ hr)
          · exact Or.inr h
    · rw [if_neg hq, ih]
      simp [List.mem_append, List.mem_cons, or_assoc, or_comm, or_left_comm]

theorem mem_dedupPatches {ps : List Patch} {p : Patch} :
    p ∈ dedupPatches ps ↔ p ∈ ps := by
  unfold dedupPatches
  rw [mem_dedupPatchesAux]
  simp

theorem nodup_dedupPatchesAux (ps : List Patch) (acc : List Patch) (hacc : acc.Nodup) :
    (ps.foldl (fun m q => if m.any (fun r => decide (r = q)) then m else m ++ [q]) acc).Nodup := by
  induction ps generalizing acc with
  | nil => simpa using hacc
  | cons q rest ih =>
    simp only [List.foldl_cons]
    by_cases hq : acc.any (fun r => decide (r = q)) = true
    · rw [if_pos hq]; exact ih acc hacc
    · rw [if_neg hq]
      refine ih _ ?_
      refine List.Nodup.append hacc (List.nodup_singleton q) ?_
      intro a ha hb
      simp only [List.mem_singleton] at hb
      subst hb
      simp only [List.any_eq_true, decide_eq_true_eq, not_exists, not_and] at hq
      exact (hq a ha) rfl

theorem nodup_dedupPatches (ps : List Patch) : (dedupPatches ps).Nodup :=
  nodup_dedupPatchesAux ps [] List.nodup_nil

theorem overwriteVersions_of_no_match {ps : List Patch} {d : Dependency}
    (h : ∀ p ∈ ps, matchesPatch d p = false) : overwriteVersions ps d = d := by
  unfold overwriteVersions
  have : ps.filter (fun p => matchesPatch d p) = [] := by
    apply List.filter_eq_nil_iff.mpr
    intro p hp
    simp [h p hp]
  rw [this]
  rfl

/-! ### Claim C1 -/

/-- Concrete patch of the spec's missing-dependency scenario. -/
def reactorNettyPatch : Patch :=
  { groupID := "io.projectreactor.netty", artifactID := "reactor-netty-http",
    version := "1.0.39", scope := "import", type := "jar" }

/-- A project with no dependencies, no DependencyManagement section and no
properties (what gopom.Parse yields for a POM without those sections). -/
def emptyProject : Project :=
  { dependencies := none, dependencyManagement := none, properties := none }

/-- C1 (code_bug evaluation).  The spec and the repository's own tests
(the common-docker case of TestPatchesFromPomFiles and the integration
test TestPatchProjectWithCommentPreservation) say that a patch matched
nowhere is appended as a new DependencyManagement entry and that this
succeeds even when the project has no DependencyManagement section; the
code as written instead creates an empty DependencyManagement value and
appends through its nil Dependencies pointer, a nil-pointer panic.
Evaluating the embedding at the spec's own scenario (a project with no
io.projectreactor.netty anywhere and no DependencyManagement section)
yields the modelled panic, not a patched project. -/
theorem patchProject_nil_dm_append_panics :
    patchProject (some emptyProject) [reactorNettyPatch] []
      = .error "nil pointer dereference: DependencyManagement.Dependencies" := rfl

/-! ### Claim C2 -/

/-- Direct dependency of the C2 counterexample project. -/
def c2DirectDep : Dependency :=
  { groupID := "g", artifactID := "a", version := "1.0", scope := "compile", type := "jar" }

/-- Dependency-management entry of the C2 counterexample project, with the
same identity key as the direct dependency. -/
def c2DmDep : Dependency :=
  { groupID := "g", artifactID := "a", version := "2.0", scope := "import", type := "pom" }

/-- The C2 counterexample patch, matching both entries. -/
def c2Patch : Patch :=
  { groupID := "g", artifactID := "a", version := "9.9", scope := "import", type := "jar" }

/-- C2 counterexample.  A patch whose identity matches both a direct
dependency and a dependency-management entry overwrites the version in
BOTH placements: the dependency-management loop of PatchProject runs over
all patches, not only over those unmatched in direct dependencies.  The
claim says only the direct entry is updated; here the DM entry's version
also becomes 9.9 (scope and type stay untouched in both placements). -/
theorem patchProject_updates_dm_despite_direct_match :
    patchProject
        (some { dependencies := some [c2DirectDep],
                dependencyManagement := some { dependencies := some [c2DmDep] },
                properties := none })
        [c2Patch] []
      = .ok { dependencies := some [{ c2DirectDep with version := "9.9" }],
              dependencyManagement := some { dependencies := some [{ c2DmDep with version := "9.9" }] },
              properties := none } := rfl

/-- The patches of a run of PatchProject that were matched in neither
placement: the deduplicated patch set filtered against the direct
dependencies and then against the dependency-management entries (these are
the entries the append stage converts with patchToDependency). -/
def missingAfter (dDeps dmDeps : List Dependency) (ps : List Patch) : List Patch :=
  ((dedupPatches ps).filter (fun m => !(dDeps.any (fun d => matchesPatch d m)))).filter
    (fun m => !(dmDeps.any (fun d => matchesPatch d m)))

/-- C2 amended.  The in-place version overwrite is applied independently
in both placements: every patch is matched against the direct Dependencies
list and also against DependencyManagement.Dependencies, overwriting every
matching entry in each (a patch matched in direct dependencies is still
applied to dependency management); only patches matched in neither place
are appended as new dependency-management entries. -/
theorem patchProject_overwrites_both_placements
    (dDeps dmDeps : List Dependency) (ps : List Patch) :
    patchProject
        (some { dependencies := some dDeps,
                dependencyManagement := some { dependencies := some dmDeps },
                properties := none }) ps []
      = .ok { dependencies := some (dDeps.map (overwriteVersions ps)),
              dependencyManagement := some { dependencies := some (dmDeps.map (overwriteVersions ps) ++ (missingAfter dDeps dmDeps ps).map patchToDependency) },
              properties := none } := rfl

/-! ### Claim C7 -/

/-- First C7 patch: identity key (g, a), version 1.0. -/
def c7PatchA : Patch :=
  { groupID := "g", artifactID := "a", version := "1.0", scope := "import", type := "jar" }

/-- Second C7 patch: the same identity key (g, a), version 2.0. -/
def c7PatchB : Patch :=
  { groupID := "g", artifactID := "a", version := "2.0", scope := "import", type := "jar" }

/-- A project with an empty (but present) dependency-management list. -/
def emptyDmProject : Project :=
  { dependencies := none,
    dependencyManagement := some { dependencies := some [] },
    properties := none }

/-- C7 counterexample.  Two input patches with the same identity key
(groupId, artifactId) but different versions are two distinct keys of the
missingDeps map (it is keyed by the full Patch value), so both are
appended as new DependencyManagement entries: the claim's
"never produce two new entries, last one wins" fails — two entries appear
and the first version survives alongside the second. -/
theorem patchProject_appends_same_identity_twice :
    patchProject (some emptyDmProject) [c7PatchA, c7PatchB] []
      = .ok { dependencies := none,
              dependencyManagement := some { dependencies := some [patchToDependency c7PatchA, patchToDependency c7PatchB] },
              properties := none } := rfl

/-- C7 amended.  The appended entries are deduplicated by the FULL patch
value, not by the identity key: when no patch matches an existing
dependency, the entries appended to DependencyManagement.Dependencies are
exactly the distinct full patch values in first-occurrence order (a patch
repeated verbatim is appended once; patches sharing an identity key but
differing in version, scope or type are each appended, with no
last-wins). -/
theorem patchProject_appends_dedup_by_full_value
    (dmDeps : List Dependency) (ps : List Patch)
    (h : ∀ p ∈ ps, ∀ d ∈ dmDeps, matchesPatch d p = false) :
    patchProject
        (some { dependencies := none,
                dependencyManagement := some { dependencies := some dmDeps },
                properties := none }) ps []
      = .ok { dependencies := none,
              dependencyManagement := some { dependencies := some (dmDeps ++ (dedupPatches ps).map patchToDependency) },
              properties := none }
    ∧ (dedupPatches ps).Nodup := by
  constructor
  · have hmap : dmDeps.map (overwriteVersions ps) = dmDeps := by
      conv_rhs => rw [← List.map_id dmDeps]
      apply List.map_congr_left
      intro d hd
      exact overwriteVersions_of_no_match (fun p hp => h p hp d hd)
    have hfil : (dedupPatches ps).filter (fun m => !(dmDeps.any (fun d => matchesPatch d m)))
        = dedupPatches ps := by
      apply List.filter_eq_self.mpr
      intro m hm
      simp only [Bool.not_eq_true', List.any_eq_false]
      intro d hd
      simp [h m (mem_dedupPatches.mp hm) d hd]
    have base : patchProject
        (some { dependencies := none,
                dependencyManagement := some { dependencies := some dmDeps },
                properties := none }) ps []
        = .ok { dependencies := none,
                dependencyManagement := some { dependencies := some (dmDeps.map (overwriteVersions ps) ++ ((dedupPatches ps).filter (fun m => !(dmDeps.any (fun d => matchesPatch d m)))).map patchToDependency) },
                properties := none } := rfl
    rw [base, hmap, hfil]
  · exact nodup_dedupPatches ps

/-- C7 amended, witness: three patches, the first repeated verbatim and
the third sharing its identity key with different version, against an
empty dependency-management list: the repeated value is appended once, the
different-version value separately. -/
theorem patchProject_appends_dedup_by_full_value_witness :
    (∀ p ∈ ([c7PatchA, c7PatchA, c7PatchB] : List Patch),
        ∀ d ∈ ([] : List Dependency), matchesPatch d p = false)
    ∧ (patchProject
          (some { dependencies := none,
                  dependencyManagement := some { dependencies := some [] },
                  properties := none })
          [c7PatchA, c7PatchA, c7PatchB] []
        = .ok { dependencies := none,
                dependencyManagement := some { dependencies := some (([] : List Dependency) ++ (dedupPatches [c7PatchA, c7PatchA, c7PatchB]).map patchToDependency) },
                properties := none }
       ∧ (dedupPatches [c7PatchA, c7PatchA, c7PatchB]).Nodup) :=
  ⟨by simp, patchProject_appends_dedup_by_full_value [] [c7PatchA, c7PatchA, c7PatchB] (by simp)⟩

/-! ## Analyzer (AnalyzeProject, analyzeDependency) -/

/-- The opening brace character (written by code point to keep brace
characters out of string literals). -/
def lbrace : Char := Char.ofNat 123

/-- The closing brace character. -/
def rbrace : Char := Char.ofNat 125

/-- The property-reference test of analyzeDependency:
`strings.HasPrefix(dep.Version, "${") && strings.HasSuffix(dep.Version, "}")`
(prefix and suffix checks only; nothing inspects the middle of the
string). -/
def versionIsPropertyRef (v : String) : Bool :=
  v.data.take 2 == ['$', lbrace] && v.data.getLast? == some rbrace

/-- The recorded property name:
`strings.TrimSuffix(strings.TrimPrefix(version, "${"), "}")`, evaluated
when both the prefix and the suffix are present. -/
def propertyRefName (v : String) : String :=
  String.mk ((v.data.drop 2).dropLast)

/-- The dependency key `fmt.Sprintf("%s:%s", groupID, artifactID)`. -/
def depKeyOf (g a : String) : String := g ++ ":" ++ a

/-- DependencyInfo: how one dependency's version is expressed. -/
structure DependencyInfo where
  groupID : String
  artifactID : String
  version : String
  usesProperty : Bool
  propertyName : String
  propertyUsageCount : Nat
deriving Repr, DecidableEq

/-- BOMInfo: one dependency-management entry with scope=import, type=pom. -/
structure BOMInfo where
  groupID : String
  artifactID : String
  version : String
  type : String
  scope : String
deriving Repr, DecidableEq

/-- AnalysisResult: dependencies keyed by groupId:artifactId, property
usage counters, the property table, and the imported BOMs.  The
TransitiveDependencies field is never filled by the code under
verification and is omitted. -/
structure AnalysisResult where
  dependencies : List (String × DependencyInfo)
  propertyUsageCounts : List (String × Nat)
  properties : List (String × String)
  boms : List BOMInfo
deriving Repr, DecidableEq

/-- analyzeDependency: classify one dependency.  When the version passes
the prefix/suffix test, the referenced name's usage counter is incremented
first and the new value recorded in the info. -/
def analyzeDependency (st : AnalysisResult) (dep : Dependency) : AnalysisResult :=
  let depKey := depKeyOf dep.groupID dep.artifactID
  if versionIsPropertyRef dep.version then
    let propertyName := propertyRefName dep.version
    let newCount := ((lookupStr st.propertyUsageCounts propertyName).getD 0) + 1
    let info : DependencyInfo :=
      { groupID := dep.groupID, artifactID := dep.artifactID, version := dep.version,
        usesProperty := true, propertyName := propertyName, propertyUsageCount := newCount }
    { st with propertyUsageCounts := upsertStr st.propertyUsageCounts propertyName newCount,
              dependencies := upsertStr st.dependencies depKey info }
  else
    let info : DependencyInfo :=
      { groupID := dep.groupID, artifactID := dep.artifactID, version := dep.version,
        usesProperty := false, propertyName := "", propertyUsageCount := 0 }
    { st with dependencies := upsertStr st.dependencies depKey info }

/-- extractPropertiesFromProject: copy the project's property entries into
a fresh map (empty when the Properties section is absent). -/
def extractPropertiesFromProject (project : Project) : List (String × String) :=
  match project.properties with
  | some entries => canonProps entries
  | none => []

/-- isBOMImport: `dep.Scope == "import" && dep.Type == "pom"`. -/
def isBOMImport (dep : Dependency) : Bool :=
  dep.scope == "import" && dep.type == "pom"

/-- AnalyzeProject: extract properties, analyze the direct dependencies,
then the dependency-management entries (those recognized as BOM imports
are collected into `boms` instead of being analyzed). -/
def analyzeProject (project : Option Project) : Except String AnalysisResult :=
  match project with
  | none => .error "project is nil"
  | some proj =>
    let st0 : AnalysisResult :=
      { dependencies := [], propertyUsageCounts := [],
        properties := extractPropertiesFromProject proj, boms := [] }
    let st1 :=
      match proj.dependencies with
      | none => st0
      | some deps => deps.foldl analyzeDependency st0
    let st2 :=
      match proj.dependencyManagement with
      | some dm =>
        match dm.dependencies with
        | some dmDeps =>
          dmDeps.foldl
            (fun st dep =>
              if isBOMImport dep then
                { st with boms := st.boms ++
                    [{ groupID := dep.groupID, artifactID := dep.artifactID,
                       version := dep.version, type := dep.type, scope := dep.scope }] }
              else analyzeDependency st dep)
            st1
        | none => st1
      | none => st1
    .ok st2

/-- ShouldUseProperty: whether the analyzed dependency keyed by
(groupID, artifactID) is property-based, and under which name. -/
def shouldUseProperty (result : AnalysisResult) (g a : String) : Bool × String :=
  match lookupStr result.dependencies (depKeyOf g a) with
  | some info => if info.usesProperty then (true, info.propertyName) else (false, "")
  | none => (false, "")

/-! ## Strategy engine (PatchStrategy and companions) -/

/-- VersionConflict: several requested versions under one groupId. -/
structure VersionConflict where
  groupID : String
  requestedVersions : List (String × String)
  recommendedAction : String
  bomCandidate : Option BOMInfo
deriving Repr, DecidableEq

/-- findBOMForGroup: the first imported BOM whose group matches exactly,
or that matches one of the hard-coded aliasing patterns (netty-bom for
io.netty; spring-bom or spring-framework-bom for org.springframework). -/
def findBOMForGroup (result : AnalysisResult) (g : String) : Option BOMInfo :=
  result.boms.find? (fun bom =>
    bom.groupID == g
    || (g == "io.netty" && bom.artifactID == "netty-bom")
    || (g == "org.springframework" &&
        (bom.artifactID == "spring-bom" || bom.artifactID == "spring-framework-bom")))

/-- The `patchGroups` map of detectVersionConflicts: groupId to an
artifactId-to-version map; a second patch for the same (group, artifact)
overwrites the version (last wins). -/
def patchGroupsStep (groups : List (String × List (String × String))) (p : Patch) :
    List (String × List (String × String)) :=
  match lookupStr groups p.groupID with
  | none => groups ++ [(p.groupID, [(p.artifactID, p.version)])]
  | some arts => upsertStr groups p.groupID (upsertStr arts p.artifactID p.version)

/-- The finished `patchGroups` map over all patches. -/
def patchGroupsOf (ps : List Patch) : List (String × List (String × String)) :=
  ps.foldl patchGroupsStep []

/-- The `versions` set of detectVersionConflicts (a map[string]bool):
the distinct version strings, in first-occurrence order. -/
def dedupStrings (l : List String) : List String :=
  l.foldl (fun m s => if m.any (fun t => t == s) then m else m ++ [s]) []

/-- The per-group body of detectVersionConflicts' loop: a group with at
least two artifacts whose requested versions are not all the same is a
conflict; the recommended action is update_bom when a BOM candidate
exists, resolve_manually otherwise. -/
def conflictOfGroup (result : AnalysisResult) (ga : String × List (String × String)) :
    Option VersionConflict :=
  if ga.2.length < 2 then none
  else if (dedupStrings (ga.2.map (fun av => av.2))).length > 1 then
    some { groupID := ga.1, requestedVersions := ga.2,
           recommendedAction :=
             if (findBOMForGroup result ga.1).isSome then "update_bom"
             else "resolve_manually",
           bomCandidate := findBOMForGroup result ga.1 }
  else none

/-- detectVersionConflicts: the conflicts among the patch groups. -/
def detectVersionConflicts (result : AnalysisResult) (ps : List Patch) :
    List VersionConflict :=
  (patchGroupsOf ps).filterMap (conflictOfGroup result)

/-- Lexicographic comparison of character lists: the kernel-computable
model of Go's `<` on strings (Go compares byte-wise; UTF-8 byte order
coincides with code-point order, so comparing decoded characters is
equivalent). -/
def charListLt : List Char → List Char → Bool
  | _, [] => false
  | [], _ :: _ => true
  | a :: as, b :: bs => if a < b then true else if b < a then false else charListLt as bs

/-- Go's `s1 < s2` (equivalently `s2 > s1`) on strings. -/
def goStringLt (a b : String) : Bool := charListLt a.data b.data

/-- calculateOptimalBOMVersion: the highest requested version under Go's
plain string comparison `version > highestVersion`, starting from "". -/
def calculateOptimalBOMVersion (requested : List (String × String)) : String :=
  requested.foldl
    (fun highest av => if highest == "" || goStringLt highest av.2 then av.2 else highest)
    ""

/-- The synthesized BOM patch of PatchStrategy: the BOM's coordinates, the
optimal version, `Type: "pom", Scope: "import"`. -/
def mkBomPatch (bom : BOMInfo) (c : VersionConflict) : Patch :=
  { groupID := bom.groupID, artifactID := bom.artifactID,
    version := calculateOptimalBOMVersion c.requestedVersions,
    scope := "import", type := "pom" }

/-- The condition under which PatchStrategy diverts a conflict to a BOM
update: `conflict.BOMCandidate != nil && conflict.RecommendedAction ==
"update_bom"`. -/
def isBomHandled (c : VersionConflict) : Bool :=
  c.bomCandidate.isSome && c.recommendedAction == "update_bom"

/-- The `bomRecommendations` list of PatchStrategy: one synthesized patch
per BOM-handled conflict, in conflict order. -/
def bomRecommendationsOf (result : AnalysisResult) (ps : List Patch) : List Patch :=
  (detectVersionConflicts result ps).filterMap (fun c =>
    match c.bomCandidate with
    | some bom => if c.recommendedAction == "update_bom" then some (mkBomPatch bom c) else none
    | none => none)

/-- The `processedGroupIDs` set of PatchStrategy: the groupIds of the
BOM-handled conflicts. -/
def processedGroupsOf (result : AnalysisResult) (ps : List Patch) : List String :=
  (detectVersionConflicts result ps).filterMap (fun c =>
    if isBomHandled c then some c.groupID else none)

/-- The accumulating state of PatchStrategy's per-patch loop: the
`directPatches` slice and the `propertyPatches` map. -/
structure StratState where
  direct : List Patch
  props : List (String × String)
deriving Repr, DecidableEq

/-- One iteration of PatchStrategy's per-patch loop: skip patches of a
BOM-handled group; route a property-based dependency's patch to its
property name, keeping the first value when the name was already set
(later patches only produce a warning); append every other patch to
directPatches unchanged.  (The loop's findBOMForGroup call and the
missingProperties list only produce log output and are omitted.) -/
def stratStep (result : AnalysisResult) (processed : List String)
    (st : StratState) (p : Patch) : StratState :=
  if processed.any (fun g => g == p.groupID) then st
  else
    let u := shouldUseProperty result p.groupID p.artifactID
    if u.1 && u.2 != "" then
      if (lookupStr st.props u.2).isSome then st
      else { st with props := st.props ++ [(u.2, p.version)] }
    else { st with direct := st.direct ++ [p] }

/-- The directPatches accumulated by the per-patch loop (before the BOM
recommendations are appended). -/
def directPartOf (result : AnalysisResult) (ps : List Patch) : List Patch :=
  (ps.foldl (stratStep result (processedGroupsOf result ps))
    { direct := [], props := [] }).direct

/-- PatchStrategy: detect conflicts, divert BOM-handled groups to
synthesized BOM patches, route the remaining patches to property updates
or direct patches, and append the BOM recommendations to the direct
patches. -/
def patchStrategy (result : AnalysisResult) (ps : List Patch) :
    List Patch × List (String × String) :=
  let processed := processedGroupsOf result ps
  let final := ps.foldl (stratStep result processed) { direct := [], props := [] }
  (final.direct ++ bomRecommendationsOf result ps, final.props)

/-- Where the per-patch loop routes a patch: `none` when the patch is
skipped as BOM-handled or its dependency is not property-based (or the
property name is empty), `some name` when its version is routed to the
property `name`. -/
def routeNameOf (result : AnalysisResult) (processed : List String) (p : Patch) :
    Option String :=
  if processed.any (fun g => g == p.groupID) then none
  else
    let u := shouldUseProperty result p.groupID p.artifactID
    if u.1 && u.2 != "" then some u.2 else none

/-- Routing predicate used by the statements below: the patch is not
skipped as BOM-handled, its dependency is property-based with a non-empty
name, and that name is `name`. -/
def routesToProperty (result : AnalysisResult) (processed : List String)
    (p : Patch) (name : String) : Bool :=
  routeNameOf result processed p == some name

/-! ### Association-list lemmas -/

theorem lookupStr_overwrite {α : Type} (m : List (String × α)) (k : String) (v : α)
    (h : m.any (fun kv => kv.1 == k) = true) :
    lookupStr (m.map (fun kv => if kv.1 == k then (k, v) else kv)) k = some v := by
  induction m with
  | nil => simp at h
  | cons kv rest ih =>
    by_cases hk : (kv.1 == k) = true
    · simp [lookupStr, List.find?, hk]
    · have h' : rest.any (fun kv => kv.1 == k) = true := by
        simp only [List.any_cons, Bool.or_eq_true] at h
        rcases h with h | h
        · exact absurd h hk
        · exact h
      have := ih h'
      simp only [lookupStr] at this ⊢
      simpa [List.find?, hk] using this

theorem lookupStr_upsertStr_self {α : Type} (m : List (String × α)) (k : String) (v : α) :
    lookupStr (upsertStr m k v) k = some v := by
  unfold upsertStr
  by_cases h : m.any (fun kv => kv.1 == k) = true
  · rw [if_pos h]
    exact lookupStr_overwrite m k v h
  · rw [if_neg h]
    have hnone : m.find? (fun kv => kv.1 == k) = none := by
      apply List.find?_eq_none.mpr
      intro kv hkv
      simp only [Bool.not_eq_true]
      by_contra hc
      simp only [Bool.not_eq_false] at hc
      exact h (List.any_eq_true.mpr ⟨kv, hkv, hc⟩)
    simp [lookupStr, List.find?_append, hnone, List.find?]

theorem lookupStr_append_single {α : Type} (m : List (String × α)) (k k' : String) (v : α) :
    lookupStr (m ++ [(k, v)]) k' =
      match lookupStr m k' with
      | some w => some w
      | none => if k == k' then some v else none := by
  simp only [lookupStr, List.find?_append]
  cases hm : m.find? (fun kv => kv.1 == k') with
  | some w => simp [Option.orElse]
  | none =>
    by_cases hk : (k == k') = true
    · simp [Option.orElse, List.find?, hk]
    · simp [Option.orElse, List.find?, hk]

/-! ### Claim C4 -/

/-- C4 amended.  A dependency analyzed by analyzeDependency is classified
as property-based exactly when its version string starts with the two
characters of a property-reference opener and ends with the closing
brace; the recorded name is everything in between, whatever it contains.
There is no whole-string single-reference check: partial interpolations
such as a string holding two references still pass when they carry the
right first two characters and last character. -/
theorem analyzeDependency_classifies_by_affixes (st : AnalysisResult) (dep : Dependency) :
    ∃ info : DependencyInfo,
      lookupStr (analyzeDependency st dep).dependencies
          (depKeyOf dep.groupID dep.artifactID) = some info
        ∧ info.usesProperty = versionIsPropertyRef dep.version
        ∧ (versionIsPropertyRef dep.version = true →
            info.propertyName = propertyRefName dep.version) := by
  unfold analyzeDependency
  by_cases h : versionIsPropertyRef dep.version = true
  · rw [if_pos h]
    refine ⟨_, lookupStr_upsertStr_self _ _ _, ?_, ?_⟩
    · simp [h]
    · intro _; rfl
  · rw [if_neg h]
    refine ⟨_, lookupStr_upsertStr_self _ _ _, ?_, ?_⟩
    · simp only [Bool.not_eq_true] at h
      simp [h]
    · intro hc; exact absurd hc h

/-- C4 counterexample input: a dependency whose version interpolates two
distinct property references (the claim classifies such a version as
direct). -/
def multiRefDep : Dependency :=
  { groupID := "g", artifactID := "a", version := "$\x7ba\x7d-$\x7bb\x7d",
    scope := "", type := "" }

/-- The DependencyInfo the analyzer actually records for multiRefDep. -/
def multiRefInfo : DependencyInfo :=
  { groupID := "g", artifactID := "a", version := "$\x7ba\x7d-$\x7bb\x7d",
    usesProperty := true, propertyName := "a\x7d-$\x7bb", propertyUsageCount := 1 }

/-- C4 counterexample.  Analyzing a project whose only dependency has the
two-reference version above classifies it as property-based
(UsesProperty true, with the nonsensical recorded name consisting of the
text between the first opener and the last closer), where the claim
requires every such partial interpolation to be classified as direct
(UsesProperty false). -/
theorem analyzeProject_multi_ref_marked_property_based :
    analyzeProject (some { dependencies := some [multiRefDep], dependencyManagement := none, properties := none })
      = .ok { dependencies := [("g:a", multiRefInfo)], propertyUsageCounts := [("a\x7d-$\x7bb", 1)], properties := [], boms := [] } := rfl

/-! ### Characterizations of the per-patch loop -/

theorem stratStep_props_char (result : AnalysisResult) (processed : List String)
    (st : StratState) (p : Patch) :
    (stratStep result processed st p).props =
      match routeNameOf result processed p with
      | none => st.props
      | some n => if (lookupStr st.props n).isSome then st.props else st.props ++ [(n, p.version)] := by
  unfold stratStep routeNameOf
  by_cases hskip : (processed.any (fun g => g == p.groupID)) = true
  · simp [hskip]
  · simp only [Bool.not_eq_true] at hskip
    simp only [hskip, Bool.false_eq_true, if_false]
    by_cases hu : ((shouldUseProperty result p.groupID p.artifactID).1
        && (shouldUseProperty result p.groupID p.artifactID).2 != "") = true
    · simp only [hu, if_true]
      by_cases hl : (lookupStr st.props (shouldUseProperty result p.groupID p.artifactID).2).isSome = true
      · simp [hl]
      · simp only [Bool.not_eq_true] at hl
        simp [hl]
    · simp only [Bool.not_eq_true] at hu
      simp [hu]

theorem stratStep_direct_char (result : AnalysisResult) (processed : List String)
    (st : StratState) (p : Patch) :
    (stratStep result processed st p).direct =
      if (processed.any (fun g => g == p.groupID)) = false
          ∧ routeNameOf result processed p = none then
        st.direct ++ [p]
      else st.direct := by
  unfold stratStep routeNameOf
  by_cases hskip : (processed.any (fun g => g == p.groupID)) = true
  · simp [hskip]
  · simp only [Bool.not_eq_true] at hskip
    simp only [hskip, Bool.false_eq_true, if_false]
    by_cases hu : ((shouldUseProperty result p.groupID p.artifactID).1
        && (shouldUseProperty result p.groupID p.artifactID).2 != "") = true
    · simp only [hu, if_true]
      by_cases hl : (lookupStr st.props (shouldUseProperty result p.groupID p.artifactID).2).isSome = true
      · simp [hl]
      · simp only [Bool.not_eq_true] at hl
        simp [hl]
    · simp only [Bool.not_eq_true] at hu
      simp [hu]

theorem stratStep_props_none (result : AnalysisResult) (processed : List String)
    (st : StratState) (p : Patch) (h : routeNameOf result processed p = none) :
    (stratStep result processed st p).props = st.props := by
  rw [stratStep_props_char, h]

theorem stratStep_props_some (result : AnalysisResult) (processed : List String)
    (st : StratState) (p : Patch) (n : String)
    (h : routeNameOf result processed p = some n) :
    (stratStep result processed st p).props =
      if (lookupStr st.props n).isSome then st.props else st.props ++ [(n, p.version)] := by
  rw [stratStep_props_char, h]

theorem routesToProperty_of_none (result : AnalysisResult) (processed : List String)
    (p : Patch) (name : String) (h : routeNameOf result processed p = none) :
    routesToProperty result processed p name = false := by
  unfold routesToProperty
  rw [h]
  rfl

theorem routesToProperty_of_some (result : AnalysisResult) (processed : List String)
    (p : Patch) (name n : String) (h : routeNameOf result processed p = some n) :
    routesToProperty result processed p name = (n == name) := by
  unfold routesToProperty
  rw [h]
  simp

/-- The propertyPatches map after the per-patch loop: an already-present
entry survives untouched; an absent key gets the first routed patch's
version. -/
theorem stratFold_props_lookup (result : AnalysisResult) (processed : List String)
    (ps : List Patch) (st : StratState) (name : String) :
    lookupStr ((ps.foldl (stratStep result processed) st).props) name =
      match lookupStr st.props name with
      | some v => some v
      | none =>
          ((ps.filter (fun p => routesToProperty result processed p name)).head?).map
            (fun p => p.version) := by
  induction ps generalizing st with
  | nil => cases h : lookupStr st.props name <;> simp [h]
  | cons p rest ih =>
    simp only [List.foldl_cons, List.filter_cons]
    rw [ih]
    cases hr : routeNameOf result processed p with
    | none =>
      rw [stratStep_props_none result processed st p hr,
          routesToProperty_of_none result processed p name hr]
      simp
    | some n =>
      rw [stratStep_props_some result processed st p n hr,
          routesToProperty_of_some result processed p name n hr]
      by_cases hn : (n == name) = true
      · have hn' : n = name := by simpa using hn
        subst hn'
        rw [hn]
        cases hl : lookupStr st.props n with
        | some v =>
          simp only [hl, Option.isSome_some, if_true]
        | none =>
          simp only [hl, Option.isSome_none, Bool.false_eq_true, if_false]
          rw [lookupStr_append_single, hl]
          simp
      · simp only [hn, Bool.false_eq_true, if_false]
        have hn' : ¬ n = name := by simpa using hn
        cases hl : lookupStr st.props n with
        | some v =>
          simp only [hl, Option.isSome_some, if_true]
        | none =>
          simp only [hl, Option.isSome_none, Bool.false_eq_true, if_false]
          rw [lookupStr_append_single]
          cases hl' : lookupStr st.props name with
          | some w => simp
          | none => simp [hn']

/-! ### Claim C6 -/

/-- C6 (confirmed).  Within one PatchStrategy call each property name
receives at most one value: the returned propertyPatches map carries, for
every name, exactly the version of the FIRST patch in input order that
routes to that name (and nothing when no patch routes to it); later
patches targeting the same name contribute nothing — their version is
neither merged nor overwritten into the map. -/
theorem patchStrategy_first_patch_wins (result : AnalysisResult) (ps : List Patch)
    (name : String) :
    lookupStr (patchStrategy result ps).2 name =
      ((ps.filter (fun p =>
          routesToProperty result (processedGroupsOf result ps) p name)).head?).map
        (fun p => p.version) := by
  show lookupStr ((ps.foldl (stratStep result (processedGroupsOf result ps))
      { direct := [], props := [] }).props) name = _
  rw [stratFold_props_lookup]
  simp [lookupStr]


/-! ### Lexicographic-comparison lemmas -/

theorem charListLt_nil_right (l : List Char) : charListLt l [] = false := by
  cases l <;> rfl

theorem charListLt_trans : ∀ (a b c : List Char),
    charListLt a b = true → charListLt b c = true → charListLt a c = true
  | _, b, [] => by
    intro _ h₂
    rw [charListLt_nil_right] at h₂
    exact absurd h₂ (by simp)
  | a, [], _ :: _ => by
    intro h₁ _
    rw [charListLt_nil_right] at h₁
    exact absurd h₁ (by simp)
  | [], _ :: _, _ :: _ => by
    intro _ _
    rfl
  | a₀ :: as, b₀ :: bs, c₀ :: cs => by
    intro h₁ h₂
    simp only [charListLt] at h₁ h₂ ⊢
    by_cases hab : a₀ < b₀
    · by_cases hbc : b₀ < c₀
      · simp [lt_trans hab hbc]
      · rw [if_neg hbc] at h₂
        by_cases hcb : c₀ < b₀
        · rw [if_pos hcb] at h₂
          exact absurd h₂ (by simp)
        · rw [if_neg hcb] at h₂
          have hbceq : b₀ = c₀ := le_antisymm (le_of_not_lt hcb) (le_of_not_lt hbc)
          subst hbceq
          simp [hab]
    · rw [if_neg hab] at h₁
      by_cases hba : b₀ < a₀
      · rw [if_pos hba] at h₁
        exact absurd h₁ (by simp)
      · rw [if_neg hba] at h₁
        have habeq : a₀ = b₀ := le_antisymm (le_of_not_lt hba) (le_of_not_lt hab)
        subst habeq
        by_cases hac : a₀ < c₀
        · simp [hac]
        · rw [if_neg hac] at h₂ ⊢
          by_cases hca : c₀ < a₀
          · rw [if_pos hca] at h₂
            exact absurd h₂ (by simp)
          · rw [if_neg hca] at h₂
            rw [if_neg hca]
            exact charListLt_trans as bs cs h₁ h₂

theorem charListLt_of_lt_of_not_lt : ∀ (a b c : List Char),
    charListLt a b = true → charListLt c b = false → charListLt a c = true
  | a, [], c => by
    intro h₁ _
    rw [charListLt_nil_right] at h₁
    exact absurd h₁ (by simp)
  | a, _ :: _, [] => by
    intro _ h₂
    exact absurd h₂ (by simp [charListLt])
  | [], _ :: _, _ :: _ => by
    intro _ _
    rfl
  | a₀ :: as, b₀ :: bs, c₀ :: cs => by
    intro h₁ h₂
    simp only [charListLt] at h₁ h₂ ⊢
    by_cases hcb : c₀ < b₀
    · rw [if_pos hcb] at h₂
      exact absurd h₂ (by simp)
    · rw [if_neg hcb] at h₂
      by_cases hab : a₀ < b₀
      · by_cases hbc : b₀ < c₀
        · simp [lt_trans hab hbc]
        · have hbceq : b₀ = c₀ := le_antisymm (le_of_not_lt hcb) (le_of_not_lt hbc)
          subst hbceq
          simp [hab]
      · rw [if_neg hab] at h₁
        by_cases hba : b₀ < a₀
        · rw [if_pos hba] at h₁
          exact absurd h₁ (by simp)
        · rw [if_neg hba] at h₁
          have habeq : a₀ = b₀ := le_antisymm (le_of_not_lt hba) (le_of_not_lt hab)
          subst habeq
          by_cases hac : a₀ < c₀
          · simp [hac]
          · have haceq : a₀ = c₀ :=
              le_antisymm (le_of_not_lt hcb) (le_of_not_lt hac)
            subst haceq
            rw [if_neg hac, if_neg hac]
            rw [if_neg (fun h => hac h)] at h₂
            exact charListLt_of_lt_of_not_lt as bs cs h₁ h₂

theorem goStringLt_trans {a b c : String} (h₁ : goStringLt a b = true)
    (h₂ : goStringLt b c = true) : goStringLt a c = true :=
  charListLt_trans a.data b.data c.data h₁ h₂

theorem goStringLt_of_lt_of_not_lt {a b c : String} (h₁ : goStringLt a b = true)
    (h₂ : goStringLt c b = false) : goStringLt a c = true :=
  charListLt_of_lt_of_not_lt a.data b.data c.data h₁ h₂

theorem goStringLt_empty_right (s : String) : goStringLt s "" = false :=
  charListLt_nil_right s.data

theorem charListLt_irrefl (l : List Char) : charListLt l l = false := by
  induction l with
  | nil => rfl
  | cons a as ih =>
    simp only [charListLt, lt_irrefl, if_neg, if_false]
    simpa using ih

theorem goStringLt_irrefl (s : String) : goStringLt s s = false :=
  charListLt_irrefl s.data

/-- Invariants of the calculateOptimalBOMVersion fold: the result is the
accumulator or one of the values, it never sinks below the accumulator,
and no value exceeds it. -/
theorem calcOptimalAux (l : List (String × String)) : ∀ acc : String,
    (l.foldl (fun highest av => if highest == "" || goStringLt highest av.2 then av.2 else highest) acc = acc
      ∨ l.foldl (fun highest av => if highest == "" || goStringLt highest av.2 then av.2 else highest) acc ∈ l.map (fun av => av.2))
    ∧ goStringLt (l.foldl (fun highest av => if highest == "" || goStringLt highest av.2 then av.2 else highest) acc) acc = false
    ∧ ∀ v ∈ l.map (fun av => av.2),
        goStringLt (l.foldl (fun highest av => if highest == "" || goStringLt highest av.2 then av.2 else highest) acc) v = false := by
  induction l with
  | nil =>
    intro acc
    refine ⟨Or.inl rfl, goStringLt_irrefl acc, ?_⟩
    intro v hv
    cases hv
  | cons av rest ih =>
    intro acc
    simp only [List.foldl_cons, List.map_cons]
    by_cases hcond : (acc == "" || goStringLt acc av.2) = true
    · rw [if_pos hcond]
      obtain ⟨ihm, ihge, ihmax⟩ := ih av.2
      refine ⟨?_, ?_, ?_⟩
      · rcases ihm with h | h
        · exact Or.inr (by rw [h]; exact List.mem_cons_self _ _)
        · exact Or.inr (List.mem_cons_of_mem _ h)
      · rcases Bool.or_eq_true_iff.mp hcond with hacc | hlt
        · have hacc' : acc = "" := by simpa using hacc
          subst hacc'
          exact goStringLt_empty_right _
        · rw [Bool.eq_false_iff]
          intro hres
          have htr := goStringLt_trans hres hlt
          rw [htr] at ihge
          exact Bool.noConfusion ihge
      · intro v hv
        rcases List.mem_cons.mp hv with rfl | hv'
        · exact ihge
        · exact ihmax v hv'
    · rw [if_neg hcond]
      obtain ⟨ihm, ihge, ihmax⟩ := ih acc
      simp only [Bool.or_eq_true, not_or, Bool.not_eq_true] at hcond
      refine ⟨?_, ihge, ?_⟩
      · rcases ihm with h | h
        · exact Or.inl h
        · exact Or.inr (List.mem_cons_of_mem _ h)
      · intro v hv
        rcases List.mem_cons.mp hv with rfl | hv'
        · rw [Bool.eq_false_iff]
          intro hres
          have htr := goStringLt_of_lt_of_not_lt hres hcond.2
          rw [htr] at ihge
          exact Bool.noConfusion ihge
        · exact ihmax v hv'

/-- calculateOptimalBOMVersion of a nonempty request map is one of the
requested versions and is not exceeded by any of them under Go's plain
string comparison. -/
theorem calculateOptimalBOMVersion_spec (l : List (String × String)) (hl : l ≠ []) :
    calculateOptimalBOMVersion l ∈ l.map (fun av => av.2)
    ∧ ∀ v ∈ l.map (fun av => av.2),
        goStringLt (calculateOptimalBOMVersion l) v = false := by
  match l, hl with
  | av :: rest, _ =>
    unfold calculateOptimalBOMVersion
    simp only [List.foldl_cons, List.map_cons]
    have hstep : (if (("" : String) == "" || goStringLt "" av.2) = true then av.2 else "") = av.2 := by
      simp
    rw [hstep]
    obtain ⟨ihm, ihge, ihmax⟩ := calcOptimalAux rest av.2
    constructor
    · rcases ihm with h | h
      · exact (by rw [h]; exact List.mem_cons_self _ _)
      · exact List.mem_cons_of_mem _ h
    · intro v hv
      rcases List.mem_cons.mp hv with rfl | hv'
      · exact ihge
      · exact ihmax v hv'


/-! ### Conflict-detection lemmas -/

theorem lookupStr_eq_none_iff {α : Type} (m : List (String × α)) (k : String) :
    lookupStr m k = none ↔ ∀ kv ∈ m, (kv.1 == k) = false := by
  unfold lookupStr
  rw [Option.map_eq_none']
  rw [List.find?_eq_none]
  constructor
  · intro h kv hkv
    have := h kv hkv
    simpa using this
  · intro h kv hkv
    simp [h kv hkv]

theorem any_key_of_lookupStr_isSome {α : Type} {m : List (String × α)} {k : String}
    (h : (lookupStr m k).isSome = true) : m.any (fun kv => kv.1 == k) = true := by
  unfold lookupStr at h
  rw [Option.isSome_map'] at h
  rw [List.find?_isSome] at h
  exact List.any_eq_true.mpr h

theorem upsertStr_keys_of_present {α : Type} (m : List (String × α)) (k : String) (v : α)
    (h : m.any (fun kv => kv.1 == k) = true) :
    (upsertStr m k v).map (fun kv => kv.1) = m.map (fun kv => kv.1) := by
  unfold upsertStr
  rw [if_pos h, List.map_map]
  apply List.map_congr_left
  intro kv _
  by_cases hk : (kv.1 == k) = true
  · have hk' : kv.1 = k := by simpa using hk
    simp [Function.comp, hk, hk']
  · simp [Function.comp, hk]

theorem patchGroupsStep_keys_nodup (groups : List (String × List (String × String)))
    (p : Patch) (h : (groups.map (fun ga => ga.1)).Nodup) :
    ((patchGroupsStep groups p).map (fun ga => ga.1)).Nodup := by
  unfold patchGroupsStep
  cases hl : lookupStr groups p.groupID with
  | none =>
    simp only [List.map_append, List.map_cons, List.map_nil]
    apply List.Nodup.append h (List.nodup_singleton _)
    intro a ha hb
    simp only [List.mem_singleton] at hb
    subst hb
    obtain ⟨ga, hga, hkey⟩ := List.mem_map.mp ha
    have := (lookupStr_eq_none_iff groups p.groupID).mp hl ga hga
    rw [hkey] at this
    simp at this
  | some arts =>
    rw [upsertStr_keys_of_present]
    · exact h
    · exact any_key_of_lookupStr_isSome (by rw [hl]; rfl)

theorem patchGroupsFold_keys_nodup (qs : List Patch) :
    ∀ acc : List (String × List (String × String)),
      (acc.map (fun ga => ga.1)).Nodup →
      ((qs.foldl patchGroupsStep acc).map (fun ga => ga.1)).Nodup := by
  induction qs with
  | nil => intro acc h; exact h
  | cons p rest ih =>
    intro acc h
    exact ih (patchGroupsStep acc p) (patchGroupsStep_keys_nodup acc p h)

theorem patchGroupsOf_keys_nodup (ps : List Patch) :
    ((patchGroupsOf ps).map (fun ga => ga.1)).Nodup :=
  patchGroupsFold_keys_nodup ps [] List.nodup_nil

theorem conflictOfGroup_spec {result : AnalysisResult}
    {ga : String × List (String × String)} {c : VersionConflict}
    (h : conflictOfGroup result ga = some c) :
    c.groupID = ga.1 ∧ c.requestedVersions = ga.2 ∧ 2 ≤ ga.2.length
    ∧ c.bomCandidate = findBOMForGroup result ga.1
    ∧ c.recommendedAction =
        (if (findBOMForGroup result ga.1).isSome then "update_bom" else "resolve_manually") := by
  unfold conflictOfGroup at h
  by_cases h1 : ga.2.length < 2
  · rw [if_pos h1] at h
    exact absurd h (by simp)
  · rw [if_neg h1] at h
    by_cases h2 : (dedupStrings (ga.2.map (fun av => av.2))).length > 1
    · rw [if_pos h2] at h
      injection h with h
      subst h
      refine ⟨rfl, rfl, by omega, rfl, rfl⟩
    · rw [if_neg h2] at h
      exact absurd h (by simp)

theorem detect_groupIds_sublist (result : AnalysisResult) :
    ∀ l : List (String × List (String × String)),
      ((l.filterMap (conflictOfGroup result)).map (fun c => c.groupID)).Sublist
        (l.map (fun ga => ga.1)) := by
  intro l
  induction l with
  | nil => simp
  | cons ga rest ih =>
    cases hf : conflictOfGroup result ga with
    | none =>
      simp only [List.filterMap_cons, hf, List.map_cons]
      exact ih.cons ga.1
    | some c =>
      simp only [List.filterMap_cons, hf, List.map_cons]
      rw [(conflictOfGroup_spec hf).1]
      exact ih.cons₂ ga.1

theorem detectVersionConflicts_groupIds_nodup (result : AnalysisResult) (ps : List Patch) :
    ((detectVersionConflicts result ps).map (fun c => c.groupID)).Nodup :=
  (patchGroupsOf_keys_nodup ps).sublist (detect_groupIds_sublist result (patchGroupsOf ps))

theorem conflict_action_update_bom {result : AnalysisResult} {ps : List Patch}
    {c : VersionConflict} (hc : c ∈ detectVersionConflicts result ps)
    (hbom : c.bomCandidate.isSome = true) : c.recommendedAction = "update_bom" := by
  obtain ⟨ga, hga, hf⟩ := List.mem_filterMap.mp hc
  obtain ⟨_, _, _, hb, ha⟩ := conflictOfGroup_spec hf
  rw [hb] at hbom
  rw [ha, if_pos hbom]

theorem isBomHandled_of_mem {result : AnalysisResult} {ps : List Patch}
    {c : VersionConflict} (hc : c ∈ detectVersionConflicts result ps)
    (hbom : c.bomCandidate.isSome = true) : isBomHandled c = true := by
  unfold isBomHandled
  rw [conflict_action_update_bom hc hbom, hbom]
  rfl

theorem groupID_mem_processed {result : AnalysisResult} {ps : List Patch}
    {c : VersionConflict} (hc : c ∈ detectVersionConflicts result ps)
    (hbom : c.bomCandidate.isSome = true) :
    c.groupID ∈ processedGroupsOf result ps := by
  unfold processedGroupsOf
  apply List.mem_filterMap.mpr
  refine ⟨c, hc, ?_⟩
  rw [if_pos (isBomHandled_of_mem hc hbom)]

theorem mkBomPatch_mem_bomRecs {result : AnalysisResult} {ps : List Patch}
    {c : VersionConflict} {bom : BOMInfo} (hc : c ∈ detectVersionConflicts result ps)
    (hbom : c.bomCandidate = some bom) :
    mkBomPatch bom c ∈ bomRecommendationsOf result ps := by
  unfold bomRecommendationsOf
  apply List.mem_filterMap.mpr
  refine ⟨c, hc, ?_⟩
  have ha : c.recommendedAction = "update_bom" :=
    conflict_action_update_bom hc (by rw [hbom]; rfl)
  rw [hbom]
  simp [ha]

theorem bomRecs_length (result : AnalysisResult) (ps : List Patch) :
    (bomRecommendationsOf result ps).length =
      ((detectVersionConflicts result ps).filter isBomHandled).length := by
  unfold bomRecommendationsOf
  generalize detectVersionConflicts result ps = l
  induction l with
  | nil => rfl
  | cons c rest ih =>
    cases hb : c.bomCandidate with
    | none =>
      have hh : isBomHandled c = false := by
        unfold isBomHandled
        rw [hb]
        rfl
      simp only [List.filterMap_cons, hb, List.filter_cons, hh]
      simpa using ih
    | some bom =>
      by_cases ha : (c.recommendedAction == "update_bom") = true
      · have hh : isBomHandled c = true := by
          unfold isBomHandled
          rw [hb]
          simpa using ha
        simp only [List.filterMap_cons, hb, ha, if_true, List.filter_cons, hh, if_true,
          List.length_cons]
        omega
      · have hh : isBomHandled c = false := by
          unfold isBomHandled
          rw [hb]
          simpa using ha
        simp only [List.filterMap_cons, hb, ha, Bool.false_eq_true, if_false,
          List.filter_cons, hh]
        simpa using ih


/-! ### Per-patch loop membership lemmas -/

theorem routeNameOf_some_not_skipped {result : AnalysisResult} {processed : List String}
    {p : Patch} {n : String} (h : routeNameOf result processed p = some n) :
    processed.any (fun g => g == p.groupID) = false := by
  unfold routeNameOf at h
  by_cases hs : processed.any (fun g => g == p.groupID) = true
  · rw [if_pos hs] at h
    exact absurd h (by simp)
  · exact Bool.eq_false_iff.mpr hs

theorem stratFold_direct_mono (result : AnalysisResult) (processed : List String) :
    ∀ (ps : List Patch) (st : StratState) (q : Patch),
      q ∈ st.direct → q ∈ (ps.foldl (stratStep result processed) st).direct := by
  intro ps
  induction ps with
  | nil => intro st q h; exact h
  | cons p rest ih =>
    intro st q h
    apply ih
    rw [stratStep_direct_char]
    split
    · exact List.mem_append_left _ h
    · exact h

theorem stratFold_direct_mem (result : AnalysisResult) (processed : List String) :
    ∀ (ps : List Patch) (st : StratState) (p : Patch),
      p ∈ ps → processed.any (fun g => g == p.groupID) = false →
      routeNameOf result processed p = none →
      p ∈ (ps.foldl (stratStep result processed) st).direct := by
  intro ps
  induction ps with
  | nil => intro st p h; cases h
  | cons q rest ih =>
    intro st p hp hskip hroute
    simp only [List.foldl_cons]
    rcases List.mem_cons.mp hp with rfl | hp'
    · apply stratFold_direct_mono
      rw [stratStep_direct_char, if_pos ⟨hskip, hroute⟩]
      exact List.mem_append_right _ (List.mem_singleton_self _)
    · exact ih _ p hp' hskip hroute

theorem stratFold_direct_not_processed (result : AnalysisResult) (processed : List String) :
    ∀ (ps : List Patch) (st : StratState),
      (∀ q ∈ st.direct, processed.any (fun g => g == q.groupID) = false) →
      ∀ q ∈ (ps.foldl (stratStep result processed) st).direct,
        processed.any (fun g => g == q.groupID) = false := by
  intro ps
  induction ps with
  | nil => intro st h; exact h
  | cons p rest ih =>
    intro st h
    apply ih
    intro q hq
    rw [stratStep_direct_char] at hq
    split at hq
    case isTrue hcond =>
      rcases List.mem_append.mp hq with hq' | hq'
      · exact h q hq'
      · rw [List.mem_singleton] at hq'
        subst hq'
        exact hcond.1
    case isFalse => exact h q hq

theorem stratFold_props_provenance (result : AnalysisResult) (processed : List String) :
    ∀ (ps : List Patch) (st : StratState) (name v : String),
      lookupStr ((ps.foldl (stratStep result processed) st).props) name = some v →
      lookupStr st.props name = some v
      ∨ ∃ p, p ∈ ps ∧ processed.any (fun g => g == p.groupID) = false ∧ v = p.version := by
  intro ps
  induction ps with
  | nil => intro st name v h; exact Or.inl h
  | cons p rest ih =>
    intro st name v h
    rcases ih _ name v h with h' | ⟨q, hq, hsk, hv⟩
    · cases hr : routeNameOf result processed p with
      | none =>
        rw [stratStep_props_none _ _ _ _ hr] at h'
        exact Or.inl h'
      | some n =>
        rw [stratStep_props_some _ _ _ _ _ hr] at h'
        by_cases hl : (lookupStr st.props n).isSome = true
        · rw [if_pos hl] at h'
          exact Or.inl h'
        · rw [if_neg hl, lookupStr_append_single] at h'
          cases hlk : lookupStr st.props name with
          | some w =>
            rw [hlk] at h'
            exact Or.inl h'
          | none =>
            rw [hlk] at h'
            by_cases hn : (n == name) = true
            · rw [if_pos hn] at h'
              injection h' with h'
              exact Or.inr ⟨p, List.mem_cons_self _ _,
                routeNameOf_some_not_skipped hr, h'.symm⟩
            · rw [if_neg hn] at h'
              exact absurd h' (by simp)
    · exact Or.inr ⟨q, List.mem_cons_of_mem _ hq, hsk, hv⟩

theorem filter_groupID_single :
    ∀ (l : List VersionConflict) (c : VersionConflict),
      (l.map (fun x => x.groupID)).Nodup → c ∈ l →
      l.filter (fun x => x.groupID == c.groupID) = [c] := by
  intro l
  induction l with
  | nil => intro c _ hc; cases hc
  | cons a rest ih =>
    intro c hnd hc
    simp only [List.map_cons, List.nodup_cons] at hnd
    rcases List.mem_cons.mp hc with rfl | hc'
    · have hrest : rest.filter (fun x => x.groupID == c.groupID) = [] := by
        apply List.filter_eq_nil_iff.mpr
        intro x hx
        intro hb
        have hx' : x.groupID = c.groupID := by simpa using hb
        exact hnd.1 (hx' ▸ List.mem_map_of_mem (fun y => y.groupID) hx)
      simp [List.filter_cons, hrest]
    · have hne : (a.groupID == c.groupID) = false := by
        rw [Bool.eq_false_iff]
        intro hb
        have ha' : a.groupID = c.groupID := by simpa using hb
        have : c.groupID ∈ rest.map (fun y => y.groupID) :=
          List.mem_map_of_mem (fun y => y.groupID) hc'
        exact hnd.1 (ha' ▸ this)
      simp [List.filter_cons, hne, ih c hnd.2 hc']

/-! ### Claim C3 -/

/-- Analysis info of the first C3 dependency: version expressed through
the shared property. -/
def sharedInfo1 : DependencyInfo :=
  { groupID := "g1", artifactID := "a1", version := "$\x7bshared.version\x7d",
    usesProperty := true, propertyName := "shared.version", propertyUsageCount := 1 }

/-- Analysis info of the second C3 dependency, referencing the same
property. -/
def sharedInfo2 : DependencyInfo :=
  { groupID := "g2", artifactID := "a2", version := "$\x7bshared.version\x7d",
    usesProperty := true, propertyName := "shared.version", propertyUsageCount := 2 }

/-- The C3 analysis result: two dependencies in different groups sharing
one property, no BOMs. -/
def c3Result : AnalysisResult :=
  { dependencies := [("g1:a1", sharedInfo1), ("g2:a2", sharedInfo2)],
    propertyUsageCounts := [("shared.version", 2)],
    properties := [("shared.version", "0.9")],
    boms := [] }

/-- First C3 patch (routes to shared.version, version 1.0). -/
def c3P1 : Patch :=
  { groupID := "g1", artifactID := "a1", version := "1.0", scope := "import", type := "jar" }

/-- Second C3 patch (routes to shared.version, version 2.0). -/
def c3P2 : Patch :=
  { groupID := "g2", artifactID := "a2", version := "2.0", scope := "import", type := "jar" }

/-- The C3 patch list. -/
def c3Ps : List Patch := [c3P1, c3P2]

/-- C3 counterexample.  Both patches route to the one shared property;
the first sets it to 1.0 and the second is dropped with only a warning:
it appears neither in directPatches (which is empty) nor as the value
recorded for its property name (which is 1.0, not its version 2.0).  So
not every input patch appears in exactly one of the two outputs. -/
theorem patchStrategy_second_property_patch_vanishes :
    patchStrategy c3Result c3Ps = ([], [("shared.version", "1.0")])
    ∧ lookupStr (patchStrategy c3Result c3Ps).2 "shared.version" ≠ some c3P2.version
    ∧ c3P2 ∉ (patchStrategy c3Result c3Ps).1 :=
  ⟨rfl, by decide, by decide⟩

/-- C3 amended.  Every patch handed to PatchStrategy is either absorbed by
a BOM-handled conflicting group, or routed to its property name (whose
entry in propertyPatches is then populated — with the first routed patch's
version, not necessarily this patch's), or appended unchanged to
directPatches; BOM-handled conflicts produce exactly one synthesized patch
each (their groupIds are distinct and each contributes one
recommendation). -/
theorem patchStrategy_routes_every_unabsorbed_patch (result : AnalysisResult)
    (ps : List Patch) :
    (∀ p ∈ ps, ∀ n, routeNameOf result (processedGroupsOf result ps) p = some n →
        (lookupStr (patchStrategy result ps).2 n).isSome = true)
    ∧ (∀ p ∈ ps, (processedGroupsOf result ps).any (fun g => g == p.groupID) = false →
        routeNameOf result (processedGroupsOf result ps) p = none →
        p ∈ (patchStrategy result ps).1)
    ∧ ((detectVersionConflicts result ps).map (fun c => c.groupID)).Nodup
    ∧ (bomRecommendationsOf result ps).length =
        ((detectVersionConflicts result ps).filter isBomHandled).length := by
  refine ⟨?_, ?_, detectVersionConflicts_groupIds_nodup result ps, bomRecs_length result ps⟩
  · intro p hp n hn
    rw [patchStrategy_first_patch_wins]
    have hmem : p ∈ ps.filter
        (fun q => routesToProperty result (processedGroupsOf result ps) q n) := by
      apply List.mem_filter.mpr
      refine ⟨hp, ?_⟩
      rw [routesToProperty_of_some _ _ _ _ _ hn]
      simp
    cases hh : (ps.filter
        (fun q => routesToProperty result (processedGroupsOf result ps) q n)).head? with
    | none =>
      rw [List.head?_eq_none_iff] at hh
      rw [hh] at hmem
      cases hmem
    | some q => simp [hh]
  · intro p hp hskip hroute
    show p ∈ (ps.foldl (stratStep result (processedGroupsOf result ps))
        { direct := [], props := [] }).direct ++ bomRecommendationsOf result ps
    exact List.mem_append_left _
      (stratFold_direct_mem result (processedGroupsOf result ps) ps _ p hp hskip hroute)

/-- C3 amended, witness: the second C3 patch routes to shared.version and
that name is indeed populated in the returned propertyPatches. -/
theorem patchStrategy_routes_every_unabsorbed_patch_witness :
    (lookupStr (patchStrategy c3Result c3Ps).2 "shared.version").isSome = true :=
  (patchStrategy_routes_every_unabsorbed_patch c3Result c3Ps).1 c3P2 (by decide)
    "shared.version" (by decide)


/-! ### Claim C5 -/

/-- C5 (confirmed).  For every conflicting group with a BOM candidate,
PatchStrategy emits the synthesized BOM patch (type pom, scope import)
whose version is one of the conflicting requested versions and is not
exceeded by any of them under Go's plain lexicographic string comparison;
the per-patch routing emits no direct patch of that groupId and every
propertyPatches value stems from a patch of some other group; and the
group corresponds to exactly one detected conflict, hence exactly one
synthesized patch. -/
theorem patchStrategy_bom_conflict (result : AnalysisResult) (ps : List Patch)
    (c : VersionConflict) (bom : BOMInfo)
    (hc : c ∈ detectVersionConflicts result ps) (hbom : c.bomCandidate = some bom) :
    (patchStrategy result ps).1 = directPartOf result ps ++ bomRecommendationsOf result ps
    ∧ mkBomPatch bom c ∈ bomRecommendationsOf result ps
    ∧ (mkBomPatch bom c).type = "pom"
    ∧ (mkBomPatch bom c).scope = "import"
    ∧ (mkBomPatch bom c).version ∈ c.requestedVersions.map (fun av => av.2)
    ∧ (∀ v ∈ c.requestedVersions.map (fun av => av.2),
        goStringLt (mkBomPatch bom c).version v = false)
    ∧ (∀ q ∈ directPartOf result ps, q.groupID ≠ c.groupID)
    ∧ (∀ name v, lookupStr (patchStrategy result ps).2 name = some v →
        ∃ p, p ∈ ps ∧ p.groupID ≠ c.groupID ∧ v = p.version)
    ∧ (detectVersionConflicts result ps).filter (fun x => x.groupID == c.groupID) = [c] := by
  have hIsSome : c.bomCandidate.isSome = true := by rw [hbom]; rfl
  have hproc : c.groupID ∈ processedGroupsOf result ps :=
    groupID_mem_processed hc hIsSome
  have hreqne : c.requestedVersions ≠ [] := by
    obtain ⟨ga, hga, hf⟩ := List.mem_filterMap.mp hc
    obtain ⟨_, hreq, hlen, _, _⟩ := conflictOfGroup_spec hf
    rw [hreq]
    intro h0
    rw [h0] at hlen
    simp at hlen
  obtain ⟨hvmem, hvmax⟩ := calculateOptimalBOMVersion_spec c.requestedVersions hreqne
  refine ⟨rfl, mkBomPatch_mem_bomRecs hc hbom, rfl, rfl, hvmem, hvmax, ?_, ?_, ?_⟩
  · intro q hq heq
    have hnp := stratFold_direct_not_processed result (processedGroupsOf result ps) ps
      { direct := [], props := [] } (by intro x hx; cases hx) q hq
    have hany : (processedGroupsOf result ps).any (fun g => g == q.groupID) = true := by
      apply List.any_eq_true.mpr
      refine ⟨c.groupID, hproc, ?_⟩
      simp [heq]
    rw [hany] at hnp
    exact Bool.noConfusion hnp
  · intro name v hlk
    rcases stratFold_props_provenance result (processedGroupsOf result ps) ps
        { direct := [], props := [] } name v hlk with h | ⟨p, hp, hsk, hv⟩
    · exact absurd h (by simp [lookupStr])
    · refine ⟨p, hp, ?_, hv⟩
      intro heq
      rw [List.any_eq_false] at hsk
      exact hsk c.groupID hproc (by simp [heq])
  · exact filter_groupID_single _ c (detectVersionConflicts_groupIds_nodup result ps) hc

/-- The BOM of the spec's netty scenario. -/
def nettyBom : BOMInfo :=
  { groupID := "io.netty", artifactID := "netty-bom", version := "4.1.100.Final",
    type := "pom", scope := "import" }

/-- The analysis result of the netty scenario: no analyzed dependencies,
one imported BOM. -/
def nettyResult : AnalysisResult :=
  { dependencies := [], propertyUsageCounts := [], properties := [], boms := [nettyBom] }

/-- The two conflicting netty patches. -/
def nettyPs : List Patch :=
  [{ groupID := "io.netty", artifactID := "netty-handler", version := "4.1.115.Final",
     scope := "import", type := "jar" },
   { groupID := "io.netty", artifactID := "netty-codec", version := "4.1.110.Final",
     scope := "import", type := "jar" }]

/-- The conflict detectVersionConflicts finds for the netty scenario. -/
def nettyConflict : VersionConflict :=
  { groupID := "io.netty",
    requestedVersions := [("netty-handler", "4.1.115.Final"), ("netty-codec", "4.1.110.Final")],
    recommendedAction := "update_bom",
    bomCandidate := some nettyBom }

/-- The single patch the strategy emits for the netty scenario. -/
def nettyBomPatch : Patch :=
  { groupID := "io.netty", artifactID := "netty-bom", version := "4.1.115.Final",
    scope := "import", type := "pom" }

/-- C5 witness: the netty scenario from the spec.  The strategy emits
exactly the one synthesized patch io.netty:netty-bom at 4.1.115.Final
(the lexicographically larger of the two conflicting requests), no
individual patches and no property updates, and the general theorem
applies to the detected conflict. -/
theorem patchStrategy_bom_conflict_witness :
    nettyConflict ∈ detectVersionConflicts nettyResult nettyPs
    ∧ patchStrategy nettyResult nettyPs = ([nettyBomPatch], [])
    ∧ mkBomPatch nettyBom nettyConflict = nettyBomPatch
    ∧ ((patchStrategy nettyResult nettyPs).1
          = directPartOf nettyResult nettyPs ++ bomRecommendationsOf nettyResult nettyPs
        ∧ mkBomPatch nettyBom nettyConflict ∈ bomRecommendationsOf nettyResult nettyPs
        ∧ (mkBomPatch nettyBom nettyConflict).type = "pom"
        ∧ (mkBomPatch nettyBom nettyConflict).scope = "import"
        ∧ (mkBomPatch nettyBom nettyConflict).version
            ∈ nettyConflict.requestedVersions.map (fun av => av.2)
        ∧ (∀ v ∈ nettyConflict.requestedVersions.map (fun av => av.2),
            goStringLt (mkBomPatch nettyBom nettyConflict).version v = false)
        ∧ (∀ q ∈ directPartOf nettyResult nettyPs, q.groupID ≠ nettyConflict.groupID)
        ∧ (∀ name v, lookupStr (patchStrategy nettyResult nettyPs).2 name = some v →
            ∃ p, p ∈ nettyPs ∧ p.groupID ≠ nettyConflict.groupID ∧ v = p.version)
        ∧ (detectVersionConflicts nettyResult nettyPs).filter
            (fun x => x.groupID == nettyConflict.groupID) = [nettyConflict]) :=
  ⟨by decide, rfl, rfl,
   patchStrategy_bom_conflict nettyResult nettyPs nettyConflict nettyBom (by decide) rfl⟩


/-! ## Validation (pkg/validation.go) -/

/-- Go's len() on a string: its UTF-8 byte length. -/
def goLen (s : String) : Nat := s.data.foldl (fun n c => n + c.utf8Size) 0

/-- Maximum length of a groupId (validation.go). -/
def maxGroupIDLength : Nat := 256

/-- Maximum length of an artifactId. -/
def maxArtifactIDLength : Nat := 256

/-- Maximum length of a version. -/
def maxVersionLength : Nat := 128

/-- The character class of groupIDArtifactIDRegex: `[a-zA-Z0-9._-]`. -/
def isCoordChar (c : Char) : Bool :=
  c.isAlphanum || c == '.' || c == '_' || c == '-'

/-- `groupIDArtifactIDRegex.MatchString s` for `^[a-zA-Z0-9._-]+$`:
nonempty and every character in the class. -/
def groupIDArtifactIDRegexOk (s : String) : Bool :=
  !s.data.isEmpty && s.data.all isCoordChar

/-- The character class of versionRegex, which additionally allows
`+ [ ] , ! ( )` for Maven version ranges. -/
def isVersionChar (c : Char) : Bool :=
  c.isAlphanum || c == '.' || c == '_' || c == '-' || c == '+'
    || c == '[' || c == ']' || c == ',' || c == '!' || c == '(' || c == ')'

/-- `versionRegex.MatchString s` for the version class. -/
def versionRegexOk (s : String) : Bool :=
  !s.data.isEmpty && s.data.all isVersionChar

/-- The fixed Maven scope vocabulary (the validScopes map). -/
def validScopes : List String :=
  ["compile", "provided", "runtime", "test", "system", "import"]

/-- ValidatePatch (validation.go lines 28-91), checks in source order;
returns the error message or none. -/
def validatePatch (patch : Patch) : Option String :=
  if goLen patch.groupID = 0 then some "groupId cannot be empty"
  else if maxGroupIDLength < goLen patch.groupID then some "groupId too long"
  else if !(groupIDArtifactIDRegexOk patch.groupID) then some "groupId contains invalid characters"
  else if goLen patch.artifactID = 0 then some "artifactId cannot be empty"
  else if maxArtifactIDLength < goLen patch.artifactID then some "artifactId too long"
  else if !(groupIDArtifactIDRegexOk patch.artifactID) then some "artifactId contains invalid characters"
  else if goLen patch.version = 0 then some "version cannot be empty"
  else if maxVersionLength < goLen patch.version then some "version too long"
  else if !(versionRegexOk patch.version) then some "version contains invalid characters"
  else if patch.scope != "" && !(validScopes.contains patch.scope) then some "invalid scope"
  else if patch.type != "" && !(groupIDArtifactIDRegexOk patch.type) then some "type contains invalid characters"
  else if patch.type != "" && 64 < goLen patch.type then some "type too long"
  else none

/-- Helper: an if-then-else chain returning some in its then-branch is
isSome whenever its else-branch is. -/
theorem isSome_ite_of {a : String} {c : Prop} [Decidable c] {b : Option String}
    (hb : b.isSome = true) : (if c then some a else b).isSome = true := by
  split
  · rfl
  · exact hb

/-- The accepted example patch of the spec. -/
def goodPatch : Patch :=
  { groupID := "com.example", artifactID := "my-artifact", version := "1.0.0",
    scope := "compile", type := "jar" }

/-- A patch with an empty groupId. -/
def emptyGroupPatch : Patch :=
  { groupID := "", artifactID := "a", version := "1.0", scope := "", type := "" }

/-- A patch with an out-of-vocabulary scope. -/
def bogusScopePatch : Patch :=
  { groupID := "g", artifactID := "a", version := "1.0", scope := "bogus", type := "" }

/-- C9 (confirmed).  ValidatePatch errors on an empty groupId, an empty
artifactId or an empty version; errors on any non-empty scope outside the
fixed vocabulary compile/provided/runtime/test/system/import; and accepts
the example patch com.example:my-artifact:1.0.0 (scope compile, type
jar). -/
theorem validatePatch_spec (patch : Patch) :
    (patch.groupID = "" → (validatePatch patch).isSome = true)
    ∧ (patch.artifactID = "" → (validatePatch patch).isSome = true)
    ∧ (patch.version = "" → (validatePatch patch).isSome = true)
    ∧ (patch.scope ≠ "" → validScopes.contains patch.scope = false →
        (validatePatch patch).isSome = true)
    ∧ validatePatch goodPatch = none := by
  refine ⟨?_, ?_, ?_, ?_, rfl⟩
  · intro h
    unfold validatePatch
    rw [if_pos (show goLen patch.groupID = 0 by rw [h]; rfl)]
    rfl
  · intro h
    unfold validatePatch
    apply isSome_ite_of
    apply isSome_ite_of
    apply isSome_ite_of
    rw [if_pos (show goLen patch.artifactID = 0 by rw [h]; rfl)]
    rfl
  · intro h
    unfold validatePatch
    apply isSome_ite_of
    apply isSome_ite_of
    apply isSome_ite_of
    apply isSome_ite_of
    apply isSome_ite_of
    apply isSome_ite_of
    rw [if_pos (show goLen patch.version = 0 by rw [h]; rfl)]
    rfl
  · intro hs hc
    unfold validatePatch
    apply isSome_ite_of
    apply isSome_ite_of
    apply isSome_ite_of
    apply isSome_ite_of
    apply isSome_ite_of
    apply isSome_ite_of
    apply isSome_ite_of
    apply isSome_ite_of
    apply isSome_ite_of
    rw [if_pos (show (patch.scope != "" && !(validScopes.contains patch.scope)) = true by
      rw [hc]; simp only [Bool.not_false, Bool.and_true, bne_iff_ne, ne_eq]; exact hs)]
    rfl

/-- C9 witness: an empty groupId is rejected, an out-of-vocabulary scope
is rejected, and the example patch is accepted. -/
theorem validatePatch_spec_witness :
    (validatePatch emptyGroupPatch).isSome = true
    ∧ (validatePatch bogusScopePatch).isSome = true
    ∧ validatePatch goodPatch = none :=
  ⟨(validatePatch_spec emptyGroupPatch).1 rfl,
   (validatePatch_spec bogusScopePatch).2.2.2.1 (by decide) (by decide),
   (validatePatch_spec goodPatch).2.2.2.2⟩

/-! ## Comment rewriter: insertComments and its string/regex helpers -/

/-- Go unicode.IsSpace (the White_Space code points). -/
def goUnicodeIsSpace (c : Char) : Bool :=
  c == ' ' || c == '\t' || c == '\n' || c == '\x0b' || c == '\x0c' || c == '\r'
  || c == '\x85' || c == '\xa0' || c == '\u1680'
  || c == '\u2000' || c == '\u2001' || c == '\u2002' || c == '\u2003' || c == '\u2004'
  || c == '\u2005' || c == '\u2006' || c == '\u2007' || c == '\u2008' || c == '\u2009'
  || c == '\u200a' || c == '\u2028' || c == '\u2029' || c == '\u202f' || c == '\u205f'
  || c == '\u3000'

/-- The regexp character class whitespace used by the Go regexp engine. -/
def goRegexSpace (c : Char) : Bool :=
  c == ' ' || c == '\t' || c == '\n' || c == '\x0c' || c == '\r'

/-- First character of a tag name: the class a-zA-Z. -/
def isTagStartChar (c : Char) : Bool := c.isAlpha

/-- Continuation character of a tag name: the class a-zA-Z0-9 dot underscore dash. -/
def isTagNameChar (c : Char) : Bool :=
  c.isAlphanum || c == '.' || c == '_' || c == '-'

/-- Does the second list start with the first? (strings.HasPrefix on char lists). -/
def listStarts : List Char → List Char → Bool
  | [], _ => true
  | _ :: _, [] => false
  | p :: ps, x :: xs => p == x && listStarts ps xs

/-- Does the second list contain the first as a contiguous sublist? -/
def containsSub (pat : List Char) : List Char → Bool
  | [] => listStarts pat []
  | c :: rest => listStarts pat (c :: rest) || containsSub pat rest

/-- strings.Contains. -/
def strContains (s sub : String) : Bool := containsSub sub.data s.data

/-- strings.HasPrefix. -/
def strStarts (s p : String) : Bool := listStarts p.data s.data

/-- strings.Split(s, newline) as an accumulator pass over the characters. -/
def splitLinesAux : List Char → List Char → List String
  | [], acc => [String.mk acc.reverse]
  | c :: rest, acc =>
      if c == '\n' then String.mk acc.reverse :: splitLinesAux rest []
      else splitLinesAux rest (c :: acc)

/-- strings.Split(s, newline). -/
def splitLines (s : String) : List String := splitLinesAux s.data []

/-- strings.Join with an arbitrary separator. -/
def joinWith (sep : String) : List String → String
  | [] => ""
  | [s] => s
  | s :: rest => s ++ sep ++ joinWith sep rest

/-- strings.Join(lines, newline). -/
def joinLines (l : List String) : String := joinWith "\n" l

/-- strings.TrimSpace. -/
def trimSpace (s : String) : String :=
  String.mk (((s.data.dropWhile goUnicodeIsSpace).reverse.dropWhile goUnicodeIsSpace).reverse)

/-- openTagRe.FindStringSubmatch: leftmost match of a pattern that asks for
a left angle bracket, a tag name, any run of characters other than a right
angle bracket, then a right angle bracket; returns capture group 1 (the tag
name).  A match starts at the first left angle bracket followed by a letter
such that some right angle bracket occurs later. -/
def findOpenTag : List Char → Option String
  | '<' :: c :: rest =>
      if isTagStartChar c && rest.any (fun x => x == '>')
      then some (String.mk (c :: rest.takeWhile isTagNameChar))
      else findOpenTag (c :: rest)
  | _ :: rest => findOpenTag rest
  | [] => none

/-- closeTagRe.FindStringSubmatch: leftmost occurrence of a left angle
bracket, slash, tag name, immediately followed by a right angle bracket. -/
def findCloseTag : List Char → Option String
  | '<' :: '/' :: c :: rest =>
      if isTagStartChar c && ((rest.dropWhile isTagNameChar).head? == some '>')
      then some (String.mk (c :: rest.takeWhile isTagNameChar))
      else findCloseTag ('/' :: c :: rest)
  | _ :: rest => findCloseTag rest
  | [] => none

/-- selfClosingRe.FindStringSubmatch: like the open-tag pattern but the
first right angle bracket after the start must be preceded by a slash and
then only regexp whitespace. -/
def findSelfCloseTag : List Char → Option String
  | '<' :: c :: rest =>
      if isTagStartChar c && rest.any (fun x => x == '>')
          && (((rest.takeWhile (fun x => x != '>')).reverse.dropWhile goRegexSpace).head? == some '/')
      then some (String.mk (c :: rest.takeWhile isTagNameChar))
      else findSelfCloseTag (c :: rest)
  | _ :: rest => findSelfCloseTag rest
  | [] => none

/-- CommentBlock (validation_test.go appended doc). -/
structure CommentBlock where
  content : List String
  beforeXPath : String
  afterXPath : String
  lineNumber : Int
  isInline : Bool
  indentLevel : Int
deriving Repr, DecidableEq

/-- The XPath-like string built for a tag under the current path. -/
def xpathOf (path : List String) (tag : String) : String :=
  "/" ++ joinWith "/" (path ++ [tag])

/-- The first regular comment (in index order) that is not yet inserted,
anchors BeforeXPath at the given path, and is not inline (the Go loop with
break over indexed regularComments). -/
def pickBefore (regs : List (Nat × CommentBlock)) (inserted : List Nat) (path : String) :
    Option (Nat × CommentBlock) :=
  regs.find? (fun ic => !(inserted.contains ic.1) && ic.2.beforeXPath == path && !ic.2.isInline)

/-- Loop state of insertComments: the result lines, the current XML path,
and the set of already-inserted regular-comment indices.  (The two
path-occurrence counters of the Go code are write-only and are omitted.) -/
structure InsState where
  result : List String
  currentPath : List String
  inserted : List Nat
deriving Repr, DecidableEq

/-- The after-project block: every not-yet-inserted regular comment whose
AfterXPath is /project and whose BeforeXPath does not contain /project/ is
appended (no break, no inline check). -/
def insertAfterProject (regs : List (Nat × CommentBlock)) (st : InsState) : InsState :=
  regs.foldl (fun s ic =>
    if !(s.inserted.contains ic.1) && ic.2.afterXPath == "/project"
        && !(strContains ic.2.beforeXPath "/project/")
    then { s with result := s.result ++ ic.2.content, inserted := ic.1 :: s.inserted }
    else s) st

/-- The tag-tracking head of the loop body: on a self-closing tag insert at
most one matching comment; otherwise on an opening tag (not starting with a
question or exclamation mark) insert at most one matching comment and push
the tag onto the path. -/
def beforePhase (regs : List (Nat × CommentBlock)) (st : InsState) (trimmed : String) : InsState :=
  match findSelfCloseTag trimmed.data with
  | some tag =>
      match pickBefore regs st.inserted (xpathOf st.currentPath tag) with
      | some ic => { st with result := st.result ++ ic.2.content, inserted := ic.1 :: st.inserted }
      | none => st
  | none =>
      match findOpenTag trimmed.data with
      | some tag =>
          if !(strStarts tag "?") && !(strStarts tag "!") then
            let st' := match pickBefore regs st.inserted (xpathOf st.currentPath tag) with
              | some ic => { st with result := st.result ++ ic.2.content, inserted := ic.1 :: st.inserted }
              | none => st
            { st' with currentPath := st'.currentPath ++ [tag] }
          else st
      | none => st

/-- Appending the current line, then the special handling of lines
containing the project opening tag. -/
def lineAndAfter (regs : List (Nat × CommentBlock)) (st : InsState) (line : String) : InsState :=
  let st2 : InsState := { st with result := st.result ++ [line] }
  if strContains line "<project" then insertAfterProject regs st2 else st2

/-- The closing-tag tail of the loop body: pop the path when its last entry
matches the closing tag. -/
def closePhase (st : InsState) (trimmed : String) : InsState :=
  match findCloseTag trimmed.data with
  | some tag =>
      if !st.currentPath.isEmpty && st.currentPath.getLast? == some tag
      then { st with currentPath := st.currentPath.dropLast }
      else st
  | none => st

/-- One iteration of the main loop of insertComments. -/
def insertLineStep (regs : List (Nat × CommentBlock)) (st : InsState) (line : String) : InsState :=
  let trimmed := trimSpace line
  closePhase (lineAndAfter regs (beforePhase regs st trimmed) line) trimmed

/-- The comments kept aside for before the XML declaration: empty
BeforeXPath and AfterXPath. -/
def partPre (comments : List CommentBlock) : List CommentBlock :=
  comments.filter (fun c => c.beforeXPath == "" && c.afterXPath == "")

/-- The comments anchored after the closing project tag. -/
def partEofc (comments : List CommentBlock) : List CommentBlock :=
  comments.filter (fun c => !(c.beforeXPath == "" && c.afterXPath == "") && c.afterXPath == "END_OF_FILE")

/-- The remaining, regular comments. -/
def partReg (comments : List CommentBlock) : List CommentBlock :=
  comments.filter (fun c => !(c.beforeXPath == "" && c.afterXPath == "") && !(c.afterXPath == "END_OF_FILE"))

/-- The pre-scan of insertComments: the lines from the first one containing
the XML declaration onward, or all lines when there is none. -/
def tailLines (lines : List String) : List String :=
  match lines.findIdx? (fun l => strContains l "<?xml") with
  | some i => lines.drop i
  | none => lines

/-- The concatenated content lines of a comment list. -/
def contentsOf (l : List CommentBlock) : List String :=
  (l.map (fun c => c.content)).flatten

/-- insertComments (validation_test.go appended doc, lines 692-830): on an
empty comment list return the document unchanged; otherwise partition the
comments, emit pre-XML contents first, run the main loop over the lines
from the XML declaration onward, and append end-of-file contents.  The Go
function's error result is always nil. -/
def insertComments (output : String) (comments : List CommentBlock) : Except String String :=
  if comments.isEmpty then .ok output
  else
    Except.ok (joinLines
      (((tailLines (splitLines output)).foldl (insertLineStep (partReg comments).enum)
          { result := contentsOf (partPre comments), currentPath := [], inserted := [] }).result
        ++ contentsOf (partEofc comments)))

/-! ### A tagged view of the same computation

To reason about where comment blocks land in the output, the same loop is
re-run emitting tagged chunks instead of raw lines: each emitted piece
records whether it is a document line or an inserted comment block (and for
comments, which partition and index it came from).  Rendering the chunk
stream recovers exactly the result lines of insertComments. -/

/-- A piece of the merged output: a document line, a pre-XML comment, an
end-of-file comment, a regular comment inserted before a tag, or a regular
comment inserted after the project opening line. -/
inductive Chunk where
  | line (s : String)
  | pre (i : Nat) (c : CommentBlock)
  | eofc (i : Nat) (c : CommentBlock)
  | regB (i : Nat) (c : CommentBlock)
  | regA (i : Nat) (c : CommentBlock)
deriving Repr, DecidableEq

/-- The lines a chunk contributes to the output. -/
def renderChunk : Chunk → List String
  | .line s => [s]
  | .pre _ c => c.content
  | .eofc _ c => c.content
  | .regB _ c => c.content
  | .regA _ c => c.content

/-- Render a chunk stream to output lines. -/
def chunksRender (l : List Chunk) : List String := (l.map renderChunk).flatten

/-- Loop state of the tagged run. -/
structure ChunkState where
  chunks : List Chunk
  currentPath : List String
  inserted : List Nat
deriving Repr, DecidableEq

/-- Forget the tags: the InsState a ChunkState stands for. -/
def toIns (st : ChunkState) : InsState :=
  { result := chunksRender st.chunks, currentPath := st.currentPath, inserted := st.inserted }

/-- Tagged after-project block. -/
def chunkAfterProject (regs : List (Nat × CommentBlock)) (st : ChunkState) : ChunkState :=
  regs.foldl (fun s ic =>
    if !(s.inserted.contains ic.1) && ic.2.afterXPath == "/project"
        && !(strContains ic.2.beforeXPath "/project/")
    then { s with chunks := s.chunks ++ [Chunk.regA ic.1 ic.2], inserted := ic.1 :: s.inserted }
    else s) st

/-- Tagged tag-tracking head of the loop body. -/
def beforePhaseC (regs : List (Nat × CommentBlock)) (st : ChunkState) (trimmed : String) : ChunkState :=
  match findSelfCloseTag trimmed.data with
  | some tag =>
      match pickBefore regs st.inserted (xpathOf st.currentPath tag) with
      | some ic => { st with chunks := st.chunks ++ [Chunk.regB ic.1 ic.2], inserted := ic.1 :: st.inserted }
      | none => st
  | none =>
      match findOpenTag trimmed.data with
      | some tag =>
          if !(strStarts tag "?") && !(strStarts tag "!") then
            let st' := match pickBefore regs st.inserted (xpathOf st.currentPath tag) with
              | some ic => { st with chunks := st.chunks ++ [Chunk.regB ic.1 ic.2], inserted := ic.1 :: st.inserted }
              | none => st
            { st' with currentPath := st'.currentPath ++ [tag] }
          else st
      | none => st

/-- Tagged line append and after-project handling. -/
def lineAndAfterC (regs : List (Nat × CommentBlock)) (st : ChunkState) (line : String) : ChunkState :=
  let st2 : ChunkState := { st with chunks := st.chunks ++ [Chunk.line line] }
  if strContains line "<project" then chunkAfterProject regs st2 else st2

/-- Tagged closing-tag tail. -/
def closePhaseC (st : ChunkState) (trimmed : String) : ChunkState :=
  match findCloseTag trimmed.data with
  | some tag =>
      if !st.currentPath.isEmpty && st.currentPath.getLast? == some tag
      then { st with currentPath := st.currentPath.dropLast }
      else st
  | none => st

/-- Tagged main-loop iteration. -/
def chunkLineStep (regs : List (Nat × CommentBlock)) (st : ChunkState) (line : String) : ChunkState :=
  let trimmed := trimSpace line
  closePhaseC (lineAndAfterC regs (beforePhaseC regs st trimmed) line) trimmed

/-- The tagged chunk stream of a whole insertComments run. -/
def insertChunks (output : String) (comments : List CommentBlock) : List Chunk :=
  if comments.isEmpty then (splitLines output).map Chunk.line
  else
    ((tailLines (splitLines output)).foldl (chunkLineStep (partReg comments).enum)
        { chunks := (partPre comments).enum.map (fun ic => Chunk.pre ic.1 ic.2),
          currentPath := [], inserted := [] }).chunks
      ++ (partEofc comments).enum.map (fun ic => Chunk.eofc ic.1 ic.2)

/-- The identity of the comment a chunk inserts: a partition code (0 for
pre-XML, 1 for end-of-file, 2 for regular) and the index in that
partition.  Document lines carry none; the two regular mechanisms share
code 2 because they draw on the same indexed list. -/
def chunkTag : Chunk → Option (Nat × Nat)
  | .line _ => none
  | .pre i _ => some (0, i)
  | .eofc i _ => some (1, i)
  | .regB i _ => some (2, i)
  | .regA i _ => some (2, i)

/-- All comment identities inserted by a chunk stream, in order. -/
def chunkTags (l : List Chunk) : List (Nat × Nat) := l.filterMap chunkTag

/-- How many before-tag comment insertions a chunk list contains. -/
def countRegB (l : List Chunk) : Nat :=
  (l.filter (fun ch => match ch with | Chunk.regB _ _ => true | _ => false)).length

/-- The document lines of a chunk stream, in order. -/
def lineStrs (l : List Chunk) : List String :=
  l.filterMap (fun ch => match ch with | Chunk.line s => some s | _ => none)

/-- The comment block a chunk carries, if any. -/
def chunkBlock? : Chunk → Option CommentBlock
  | .line _ => none
  | .pre _ c => some c
  | .eofc _ c => some c
  | .regB _ c => some c
  | .regA _ c => some c

/-! ### Rendering and bridging lemmas -/

theorem strmk_append (a b : List Char) : String.mk a ++ String.mk b = String.mk (a ++ b) := rfl

theorem splitLinesAux_ne_nil (l acc : List Char) : splitLinesAux l acc ≠ [] := by
  cases l with
  | nil => simp [splitLinesAux]
  | cons c rest =>
    simp only [splitLinesAux]
    split
    · simp
    · exact splitLinesAux_ne_nil rest (c :: acc)

theorem joinLines_splitLinesAux (l : List Char) :
    ∀ acc : List Char, joinLines (splitLinesAux l acc) = String.mk (acc.reverse ++ l) := by
  induction l with
  | nil =>
    intro acc
    simp [splitLinesAux, joinLines, joinWith]
  | cons c rest ih =>
    intro acc
    by_cases hc : (c == '\n') = true
    · have hc' : c = '\n' := eq_of_beq hc
      simp only [splitLinesAux, hc, if_true]
      obtain ⟨r0, rs, hr⟩ := List.exists_cons_of_ne_nil (splitLinesAux_ne_nil rest [])
      rw [joinLines] at *
      rw [hr]
      simp only [joinWith]
      rw [← hr]
      have ihr := ih []
      rw [joinLines] at ihr
      rw [ihr]
      simp only [List.reverse_nil, List.nil_append]
      rw [show ("\n" : String) = String.mk ['\n'] from rfl, strmk_append, strmk_append]
      rw [hc']
      simp
    · simp only [splitLinesAux]
      rw [if_neg hc, ih (c :: acc)]
      simp

theorem joinLines_splitLines (s : String) : joinLines (splitLines s) = s := by
  rw [splitLines, joinLines_splitLinesAux]
  simp

theorem chunksRender_append (a b : List Chunk) :
    chunksRender (a ++ b) = chunksRender a ++ chunksRender b := by
  simp [chunksRender]

theorem flatten_map_single {α : Type} (l : List α) : (l.map (fun a => [a])).flatten = l := by
  induction l with
  | nil => rfl
  | cons a r ih => simp [ih]

theorem chunksRender_lines (l : List String) : chunksRender (l.map Chunk.line) = l := by
  rw [chunksRender, List.map_map]
  have h : renderChunk ∘ Chunk.line = fun s => [s] := rfl
  rw [h, flatten_map_single]

theorem chunksRender_enum_pre (l : List CommentBlock) :
    chunksRender (l.enum.map (fun ic => Chunk.pre ic.1 ic.2)) = contentsOf l := by
  rw [chunksRender, contentsOf, List.map_map]
  have h : (renderChunk ∘ fun ic : Nat × CommentBlock => Chunk.pre ic.1 ic.2)
      = (fun c : CommentBlock => c.content) ∘ Prod.snd := rfl
  rw [h, ← List.map_map, List.enum_map_snd]

theorem chunksRender_enum_eofc (l : List CommentBlock) :
    chunksRender (l.enum.map (fun ic => Chunk.eofc ic.1 ic.2)) = contentsOf l := by
  rw [chunksRender, contentsOf, List.map_map]
  have h : (renderChunk ∘ fun ic : Nat × CommentBlock => Chunk.eofc ic.1 ic.2)
      = (fun c : CommentBlock => c.content) ∘ Prod.snd := rfl
  rw [h, ← List.map_map, List.enum_map_snd]

theorem foldl_toIns_bridge {f : InsState → (Nat × CommentBlock) → InsState}
    {g : ChunkState → (Nat × CommentBlock) → ChunkState}
    (hfg : ∀ s ic, f (toIns s) ic = toIns (g s ic)) :
    ∀ (regs : List (Nat × CommentBlock)) (st : ChunkState),
      regs.foldl f (toIns st) = toIns (regs.foldl g st) := by
  intro regs
  induction regs with
  | nil => intro st; rfl
  | cons ic rest ih =>
    intro st
    rw [List.foldl_cons, List.foldl_cons, hfg]
    exact ih _

theorem insertAfterProject_bridge (regs : List (Nat × CommentBlock)) (st : ChunkState) :
    insertAfterProject regs (toIns st) = toIns (chunkAfterProject regs st) := by
  rw [insertAfterProject, chunkAfterProject]
  apply foldl_toIns_bridge
  intro s ic
  by_cases hc : (!(s.inserted.contains ic.1) && ic.2.afterXPath == "/project"
      && !(strContains ic.2.beforeXPath "/project/")) = true
  · simp only [toIns]
    rw [if_pos hc, if_pos hc]
    simp [chunksRender_append, chunksRender, renderChunk]
  · simp only [toIns]
    rw [if_neg hc, if_neg hc]

theorem beforePhase_bridge (regs : List (Nat × CommentBlock)) (st : ChunkState) (trimmed : String) :
    beforePhase regs (toIns st) trimmed = toIns (beforePhaseC regs st trimmed) := by
  cases hsc : findSelfCloseTag trimmed.data with
  | some tag =>
    cases hp : pickBefore regs st.inserted (xpathOf st.currentPath tag) with
    | some ic =>
      simp [beforePhase, beforePhaseC, toIns, hsc, hp, chunksRender_append, chunksRender, renderChunk]
    | none => simp [beforePhase, beforePhaseC, toIns, hsc, hp]
  | none =>
    cases ho : findOpenTag trimmed.data with
    | some tag =>
      by_cases hq : (!(strStarts tag "?") && !(strStarts tag "!")) = true
      · cases hp : pickBefore regs st.inserted (xpathOf st.currentPath tag) with
        | some ic =>
          simp [beforePhase, beforePhaseC, toIns, hsc, ho, hq, hp, chunksRender_append, chunksRender, renderChunk]
        | none => simp [beforePhase, beforePhaseC, toIns, hsc, ho, hq, hp]
      · simp [beforePhase, beforePhaseC, toIns, hsc, ho, hq]
    | none => simp [beforePhase, beforePhaseC, toIns, hsc, ho]

theorem lineAndAfter_bridge (regs : List (Nat × CommentBlock)) (st : ChunkState) (line : String) :
    lineAndAfter regs (toIns st) line = toIns (lineAndAfterC regs st line) := by
  rw [lineAndAfter, lineAndAfterC]
  have hmid : ({ toIns st with result := (toIns st).result ++ [line] } : InsState)
      = toIns { st with chunks := st.chunks ++ [Chunk.line line] } := by
    simp [toIns, chunksRender_append, chunksRender, renderChunk]
  by_cases hp : strContains line "<project" = true
  · simp only [hp, if_true]
    rw [hmid, insertAfterProject_bridge]
  · simp only [hp, if_false]
    exact hmid

theorem closePhase_bridge (st : ChunkState) (trimmed : String) :
    closePhase (toIns st) trimmed = toIns (closePhaseC st trimmed) := by
  cases hcl : findCloseTag trimmed.data with
  | some tag =>
    by_cases h : (!st.currentPath.isEmpty && st.currentPath.getLast? == some tag) = true
    · simp [closePhase, closePhaseC, toIns, hcl, h]
    · simp [closePhase, closePhaseC, toIns, hcl, h]
  | none => simp [closePhase, closePhaseC, toIns, hcl]

theorem insertLineStep_bridge (regs : List (Nat × CommentBlock)) (st : ChunkState) (line : String) :
    insertLineStep regs (toIns st) line = toIns (chunkLineStep regs st line) := by
  rw [insertLineStep, chunkLineStep, beforePhase_bridge, lineAndAfter_bridge, closePhase_bridge]

theorem foldl_lineStep_bridge (regs : List (Nat × CommentBlock)) (lines : List String) :
    ∀ st : ChunkState,
      lines.foldl (insertLineStep regs) (toIns st) = toIns (lines.foldl (chunkLineStep regs) st) := by
  induction lines with
  | nil => intro st; rfl
  | cons l rest ih =>
    intro st
    rw [List.foldl_cons, List.foldl_cons, insertLineStep_bridge]
    exact ih _

theorem insertComments_eq_render (output : String) (comments : List CommentBlock) :
    insertComments output comments
      = Except.ok (joinLines (chunksRender (insertChunks output comments))) := by
  by_cases hc : comments.isEmpty = true
  · rw [insertComments, insertChunks, if_pos hc, if_pos hc, chunksRender_lines, joinLines_splitLines]
  · rw [insertComments, insertChunks, if_neg hc, if_neg hc, chunksRender_append, chunksRender_enum_eofc]
    have h0 : ({ result := contentsOf (partPre comments), currentPath := [], inserted := [] } : InsState)
        = toIns { chunks := (partPre comments).enum.map (fun ic => Chunk.pre ic.1 ic.2), currentPath := [], inserted := [] } := by
      simp [toIns, chunksRender_enum_pre]
    rw [h0, foldl_lineStep_bridge]
    rfl

/-! ### Structural facts about the chunk stream -/

theorem chunkTags_append (a b : List Chunk) : chunkTags (a ++ b) = chunkTags a ++ chunkTags b := by
  simp [chunkTags]

theorem lineStrs_append (a b : List Chunk) : lineStrs (a ++ b) = lineStrs a ++ lineStrs b := by
  simp [lineStrs]

theorem countRegB_append (a b : List Chunk) : countRegB (a ++ b) = countRegB a + countRegB b := by
  simp [countRegB]

theorem pickBefore_mem {regs : List (Nat × CommentBlock)} {ins : List Nat} {path : String}
    {ic : Nat × CommentBlock} (h : pickBefore regs ins path = some ic) : ic ∈ regs :=
  List.mem_of_find?_eq_some h

theorem pickBefore_fresh {regs : List (Nat × CommentBlock)} {ins : List Nat} {path : String}
    {ic : Nat × CommentBlock} (h : pickBefore regs ins path = some ic) :
    ins.contains ic.1 = false := by
  have hp := List.find?_some h
  simp only [Bool.and_eq_true, Bool.not_eq_true'] at hp
  exact hp.1.1

/-- What one head-phase call does to the chunks and the inserted set:
either nothing, or exactly one fresh before-tag comment from the indexed
list. -/
theorem beforePhaseC_shape (regs : List (Nat × CommentBlock)) (st : ChunkState) (trimmed : String) :
    ((beforePhaseC regs st trimmed).chunks = st.chunks
      ∧ (beforePhaseC regs st trimmed).inserted = st.inserted)
    ∨ ∃ ic, ic ∈ regs ∧ st.inserted.contains ic.1 = false
        ∧ (beforePhaseC regs st trimmed).chunks = st.chunks ++ [Chunk.regB ic.1 ic.2]
        ∧ (beforePhaseC regs st trimmed).inserted = ic.1 :: st.inserted := by
  cases hsc : findSelfCloseTag trimmed.data with
  | some tag =>
    cases hp : pickBefore regs st.inserted (xpathOf st.currentPath tag) with
    | some ic =>
      right
      exact ⟨ic, pickBefore_mem hp, pickBefore_fresh hp,
        by simp [beforePhaseC, hsc, hp], by simp [beforePhaseC, hsc, hp]⟩
    | none => left; constructor <;> simp [beforePhaseC, hsc, hp]
  | none =>
    cases ho : findOpenTag trimmed.data with
    | some tag =>
      by_cases hq : (!(strStarts tag "?") && !(strStarts tag "!")) = true
      · cases hp : pickBefore regs st.inserted (xpathOf st.currentPath tag) with
        | some ic =>
          right
          exact ⟨ic, pickBefore_mem hp, pickBefore_fresh hp,
            by simp [beforePhaseC, hsc, ho, hq, hp], by simp [beforePhaseC, hsc, ho, hq, hp]⟩
        | none => left; constructor <;> simp [beforePhaseC, hsc, ho, hq, hp]
      · left; constructor <;> simp [beforePhaseC, hsc, ho, hq]
    | none => left; constructor <;> simp [beforePhaseC, hsc, ho]

/-- The closing-tag phase only pops the path. -/
theorem closePhaseC_same (st : ChunkState) (trimmed : String) :
    (closePhaseC st trimmed).chunks = st.chunks ∧ (closePhaseC st trimmed).inserted = st.inserted := by
  cases hcl : findCloseTag trimmed.data with
  | some tag =>
    by_cases h : (!st.currentPath.isEmpty && st.currentPath.getLast? == some tag) = true
    · constructor <;> simp [closePhaseC, hcl, h]
    · constructor <;> simp [closePhaseC, hcl, h]
  | none => constructor <;> simp [closePhaseC, hcl]

/-- The after-project block only appends after-insertion chunks: no
document line and no before-tag insertion. -/
theorem chunkAfterProject_ext (regs : List (Nat × CommentBlock)) :
    ∀ st : ChunkState, ∃ ext, (chunkAfterProject regs st).chunks = st.chunks ++ ext
      ∧ countRegB ext = 0 ∧ lineStrs ext = [] := by
  induction regs with
  | nil => intro st; exact ⟨[], by simp [chunkAfterProject], rfl, rfl⟩
  | cons ic rest ih =>
    intro st
    rw [chunkAfterProject, List.foldl_cons]
    by_cases hc : (!(st.inserted.contains ic.1) && ic.2.afterXPath == "/project"
        && !(strContains ic.2.beforeXPath "/project/")) = true
    · rw [if_pos hc]
      obtain ⟨ext, he, hcnt, hl⟩ := ih { st with chunks := st.chunks ++ [Chunk.regA ic.1 ic.2], inserted := ic.1 :: st.inserted }
      rw [chunkAfterProject] at he
      refine ⟨[Chunk.regA ic.1 ic.2] ++ ext, ?_, ?_, ?_⟩
      · rw [he]; simp
      · rw [countRegB_append, hcnt]; rfl
      · rw [lineStrs_append, hl]; rfl
    · rw [if_neg hc]
      obtain ⟨ext, he, hcnt, hl⟩ := ih st
      rw [chunkAfterProject] at he
      exact ⟨ext, he, hcnt, hl⟩

/-- One whole loop iteration appends the processed line, at most one
before-tag comment, and some after-project comments. -/
theorem chunkLineStep_ext (regs : List (Nat × CommentBlock)) (st : ChunkState) (line : String) :
    ∃ ext, (chunkLineStep regs st line).chunks = st.chunks ++ ext
      ∧ countRegB ext ≤ 1 ∧ lineStrs ext = [line] := by
  rw [chunkLineStep]
  obtain hcl := closePhaseC_same (lineAndAfterC regs (beforePhaseC regs st (trimSpace line)) line) (trimSpace line)
  rw [hcl.1]
  have hb : ∃ e1, (beforePhaseC regs st (trimSpace line)).chunks = st.chunks ++ e1 ∧ countRegB e1 ≤ 1 ∧ lineStrs e1 = [] := by
    cases beforePhaseC_shape regs st (trimSpace line) with
    | inl hs => exact ⟨[], by rw [hs.1]; simp, by simp [countRegB], rfl⟩
    | inr hs =>
      obtain ⟨ic, _, _, hc, _⟩ := hs
      exact ⟨[Chunk.regB ic.1 ic.2], hc, by simp [countRegB], rfl⟩
  obtain ⟨e1, he1, hc1, hl1⟩ := hb
  have hla : ∃ e2, (lineAndAfterC regs (beforePhaseC regs st (trimSpace line)) line).chunks
      = (beforePhaseC regs st (trimSpace line)).chunks ++ [Chunk.line line] ++ e2
      ∧ countRegB e2 = 0 ∧ lineStrs e2 = [] := by
    rw [lineAndAfterC]
    by_cases hp : strContains line "<project" = true
    · simp only [hp, if_true]
      obtain ⟨ext, he, hcnt, hl⟩ := chunkAfterProject_ext regs { (beforePhaseC regs st (trimSpace line)) with chunks := (beforePhaseC regs st (trimSpace line)).chunks ++ [Chunk.line line] }
      exact ⟨ext, he, hcnt, hl⟩
    · simp only [hp, if_false]
      exact ⟨[], by simp, rfl, rfl⟩
  obtain ⟨e2, he2, hc2, hl2⟩ := hla
  refine ⟨e1 ++ [Chunk.line line] ++ e2, ?_, ?_, ?_⟩
  · rw [he2, he1]; simp
  · rw [countRegB_append, countRegB_append, hc2]
    have : countRegB [Chunk.line line] = 0 := rfl
    omega
  · rw [lineStrs_append, lineStrs_append, hl1, hl2]; rfl

theorem foldl_chunkLineStep_lines (regs : List (Nat × CommentBlock)) (lines : List String) :
    ∀ st : ChunkState,
      lineStrs ((lines.foldl (chunkLineStep regs) st).chunks) = lineStrs st.chunks ++ lines := by
  induction lines with
  | nil => intro st; simp
  | cons l rest ih =>
    intro st
    rw [List.foldl_cons, ih]
    obtain ⟨ext, he, _, hl⟩ := chunkLineStep_ext regs st l
    rw [he, lineStrs_append, hl]
    simp

/-! ### The insertion invariant: fresh tags, known categories, known blocks -/

/-- Invariant carried through the main loop: the inserted comment
identities are distinct; every identity so far is a pre-XML or a regular
one; every regular identity in the stream is recorded in the inserted set;
and every carried block comes from the given list. -/
def chunkInv (blocks : List CommentBlock) (chunks : List Chunk) (inserted : List Nat) : Prop :=
  (chunkTags chunks).Nodup
  ∧ (∀ p ∈ chunkTags chunks, p.1 = 0 ∨ p.1 = 2)
  ∧ (∀ i : Nat, (2, i) ∈ chunkTags chunks → inserted.contains i = true)
  ∧ (∀ ch ∈ chunks, ∀ c : CommentBlock, chunkBlock? ch = some c → c ∈ blocks)

theorem chunkInv_extend_reg {blocks : List CommentBlock} {chunks : List Chunk} {inserted : List Nat}
    {i : Nat} {c : CommentBlock} {ch : Chunk}
    (hch : ch = Chunk.regB i c ∨ ch = Chunk.regA i c)
    (hfresh : inserted.contains i = false) (hblock : c ∈ blocks)
    (h : chunkInv blocks chunks inserted) :
    chunkInv blocks (chunks ++ [ch]) (i :: inserted) := by
  obtain ⟨h1, h2, h3, h4⟩ := h
  have htag : chunkTags [ch] = [(2, i)] := by
    cases hch with
    | inl e => rw [e]; rfl
    | inr e => rw [e]; rfl
  have hnotmem : (2, i) ∉ chunkTags chunks := by
    intro hm
    rw [h3 i hm] at hfresh
    exact Bool.noConfusion hfresh
  refine ⟨?_, ?_, ?_, ?_⟩
  · rw [chunkTags_append, htag, List.nodup_append]
    refine ⟨h1, List.nodup_singleton _, ?_⟩
    intro x hx hx'
    rw [List.mem_singleton] at hx'
    subst hx'
    exact hnotmem hx
  · intro p hp
    rw [chunkTags_append, htag, List.mem_append] at hp
    cases hp with
    | inl hp => exact h2 p hp
    | inr hp =>
      rw [List.mem_singleton] at hp
      subst hp
      right
      rfl
  · intro j hj
    rw [chunkTags_append, htag, List.mem_append] at hj
    cases hj with
    | inl hj =>
      have hmem : j ∈ inserted := by simpa using h3 j hj
      simp [hmem]
    | inr hj =>
      rw [List.mem_singleton] at hj
      have hji : j = i := congrArg Prod.snd hj
      subst hji
      simp
  · intro ch' hch' cc hcc
    rw [List.mem_append] at hch'
    cases hch' with
    | inl hm => exact h4 ch' hm cc hcc
    | inr hm =>
      rw [List.mem_singleton] at hm
      subst hm
      cases hch with
      | inl e =>
        subst e
        have : c = cc := by simpa [chunkBlock?] using hcc
        rw [← this]
        exact hblock
      | inr e =>
        subst e
        have : c = cc := by simpa [chunkBlock?] using hcc
        rw [← this]
        exact hblock

theorem chunkInv_extend_line {blocks : List CommentBlock} {chunks : List Chunk} {inserted : List Nat}
    (s : String) (h : chunkInv blocks chunks inserted) :
    chunkInv blocks (chunks ++ [Chunk.line s]) inserted := by
  obtain ⟨h1, h2, h3, h4⟩ := h
  have htag : chunkTags (chunks ++ [Chunk.line s]) = chunkTags chunks := by
    rw [chunkTags_append]
    simp [chunkTags, chunkTag]
  refine ⟨htag ▸ h1, htag ▸ h2, htag ▸ h3, ?_⟩
  intro ch' hch' cc hcc
  rw [List.mem_append] at hch'
  cases hch' with
  | inl hm => exact h4 ch' hm cc hcc
  | inr hm =>
    rw [List.mem_singleton] at hm
    subst hm
    exact absurd hcc (by simp [chunkBlock?])

theorem beforePhaseC_inv {blocks : List CommentBlock} {regs : List (Nat × CommentBlock)}
    (hregs : ∀ ic ∈ regs, ic.2 ∈ blocks) (st : ChunkState) (trimmed : String)
    (h : chunkInv blocks st.chunks st.inserted) :
    chunkInv blocks (beforePhaseC regs st trimmed).chunks (beforePhaseC regs st trimmed).inserted := by
  cases beforePhaseC_shape regs st trimmed with
  | inl hs => rw [hs.1, hs.2]; exact h
  | inr hs =>
    obtain ⟨ic, hmem, hfresh, hc, hi⟩ := hs
    rw [hc, hi]
    exact chunkInv_extend_reg (Or.inl rfl) hfresh (hregs ic hmem) h

theorem chunkAfterProject_inv {blocks : List CommentBlock} {regs : List (Nat × CommentBlock)}
    (hregs : ∀ ic ∈ regs, ic.2 ∈ blocks) :
    ∀ st : ChunkState, chunkInv blocks st.chunks st.inserted →
      chunkInv blocks (chunkAfterProject regs st).chunks (chunkAfterProject regs st).inserted := by
  induction regs with
  | nil => intro st h; simpa [chunkAfterProject] using h
  | cons ic rest ih =>
    intro st h
    rw [chunkAfterProject, List.foldl_cons]
    have hrest : ∀ jc ∈ rest, jc.2 ∈ blocks := fun jc hm => hregs jc (List.mem_cons_of_mem _ hm)
    by_cases hc : (!(st.inserted.contains ic.1) && ic.2.afterXPath == "/project"
        && !(strContains ic.2.beforeXPath "/project/")) = true
    · rw [if_pos hc]
      have hc' := hc
      simp only [Bool.and_eq_true, Bool.not_eq_true'] at hc'
      have := ih hrest { st with chunks := st.chunks ++ [Chunk.regA ic.1 ic.2], inserted := ic.1 :: st.inserted }
      rw [chunkAfterProject] at this
      exact this (chunkInv_extend_reg (Or.inr rfl) hc'.1.1 (hregs ic (List.mem_cons_self _ _)) h)
    · rw [if_neg hc]
      have := ih hrest st
      rw [chunkAfterProject] at this
      exact this h

theorem lineAndAfterC_inv {blocks : List CommentBlock} {regs : List (Nat × CommentBlock)}
    (hregs : ∀ ic ∈ regs, ic.2 ∈ blocks) (st : ChunkState) (line : String)
    (h : chunkInv blocks st.chunks st.inserted) :
    chunkInv blocks (lineAndAfterC regs st line).chunks (lineAndAfterC regs st line).inserted := by
  rw [lineAndAfterC]
  have hline := chunkInv_extend_line line h
  by_cases hp : strContains line "<project" = true
  · simp only [hp, if_true]
    exact chunkAfterProject_inv hregs { st with chunks := st.chunks ++ [Chunk.line line] } hline
  · simp only [hp, if_false]
    exact hline

theorem chunkLineStep_inv {blocks : List CommentBlock} {regs : List (Nat × CommentBlock)}
    (hregs : ∀ ic ∈ regs, ic.2 ∈ blocks) (st : ChunkState) (line : String)
    (h : chunkInv blocks st.chunks st.inserted) :
    chunkInv blocks (chunkLineStep regs st line).chunks (chunkLineStep regs st line).inserted := by
  rw [chunkLineStep]
  obtain hcl := closePhaseC_same (lineAndAfterC regs (beforePhaseC regs st (trimSpace line)) line) (trimSpace line)
  rw [hcl.1, hcl.2]
  exact lineAndAfterC_inv hregs _ line (beforePhaseC_inv hregs st (trimSpace line) h)

theorem foldl_chunkLineStep_inv {blocks : List CommentBlock} {regs : List (Nat × CommentBlock)}
    (hregs : ∀ ic ∈ regs, ic.2 ∈ blocks) (lines : List String) :
    ∀ st : ChunkState, chunkInv blocks st.chunks st.inserted →
      chunkInv blocks ((lines.foldl (chunkLineStep regs) st).chunks)
        ((lines.foldl (chunkLineStep regs) st).inserted) := by
  induction lines with
  | nil => intro st h; exact h
  | cons l rest ih =>
    intro st h
    rw [List.foldl_cons]
    exact ih _ (chunkLineStep_inv hregs st l h)

/-! ### The initial and final chunk segments -/

theorem snd_mem_of_mem_enum {α : Type} {l : List α} {ic : Nat × α} (h : ic ∈ l.enum) : ic.2 ∈ l := by
  have := List.mem_map_of_mem Prod.snd h
  rwa [List.enum_map_snd] at this

theorem chunkTags_lines (l : List String) : chunkTags (l.map Chunk.line) = [] := by
  induction l with
  | nil => rfl
  | cons s rest _ => simp [chunkTags, chunkTag]

theorem lineStrs_lines (l : List String) : lineStrs (l.map Chunk.line) = l := by
  induction l with
  | nil => rfl
  | cons s rest ih => simpa [lineStrs] using ih

theorem chunkTags_enum_pre (l : List CommentBlock) :
    chunkTags (l.enum.map (fun ic => Chunk.pre ic.1 ic.2))
      = l.enum.map (fun ic => ((0 : Nat), ic.1)) := by
  rw [chunkTags, List.filterMap_map]
  rw [show (chunkTag ∘ fun ic : Nat × CommentBlock => Chunk.pre ic.1 ic.2)
      = some ∘ (fun ic : Nat × CommentBlock => ((0 : Nat), ic.1)) from rfl]
  exact List.filterMap_eq_map _ ▸ rfl

theorem chunkTags_enum_eofc (l : List CommentBlock) :
    chunkTags (l.enum.map (fun ic => Chunk.eofc ic.1 ic.2))
      = l.enum.map (fun ic => ((1 : Nat), ic.1)) := by
  rw [chunkTags, List.filterMap_map]
  rw [show (chunkTag ∘ fun ic : Nat × CommentBlock => Chunk.eofc ic.1 ic.2)
      = some ∘ (fun ic : Nat × CommentBlock => ((1 : Nat), ic.1)) from rfl]
  exact List.filterMap_eq_map _ ▸ rfl

theorem lineStrs_enum_pre (l : List CommentBlock) :
    lineStrs (l.enum.map (fun ic => Chunk.pre ic.1 ic.2)) = [] := by
  induction l.enum with
  | nil => rfl
  | cons ic rest _ => simp [lineStrs]

theorem lineStrs_enum_eofc (l : List CommentBlock) :
    lineStrs (l.enum.map (fun ic => Chunk.eofc ic.1 ic.2)) = [] := by
  induction l.enum with
  | nil => rfl
  | cons ic rest _ => simp [lineStrs]

theorem nodup_tag_enum {α : Type} (l : List α) (k : Nat) :
    (l.enum.map (fun ic => (k, ic.1))).Nodup := by
  rw [show (fun ic : Nat × α => (k, ic.1)) = (fun i => (k, i)) ∘ Prod.fst from rfl,
    ← List.map_map, List.enum_map_fst]
  exact (List.nodup_range _).map (fun a b hab => congrArg Prod.snd hab)

/-- The loop start state satisfies the invariant. -/
theorem chunkInv_start (comments : List CommentBlock) :
    chunkInv comments ((partPre comments).enum.map (fun ic => Chunk.pre ic.1 ic.2)) [] := by
  refine ⟨?_, ?_, ?_, ?_⟩
  · rw [chunkTags_enum_pre]
    exact nodup_tag_enum _ 0
  · intro p hp
    rw [chunkTags_enum_pre, List.mem_map] at hp
    obtain ⟨ic, _, he⟩ := hp
    left
    rw [← he]
  · intro i hi
    rw [chunkTags_enum_pre, List.mem_map] at hi
    obtain ⟨ic, _, he⟩ := hi
    exact absurd (congrArg Prod.fst he) (by simp)
  · intro ch hch cc hcc
    rw [List.mem_map] at hch
    obtain ⟨ic, hmem, he⟩ := hch
    rw [← he] at hcc
    have : ic.2 = cc := by simpa [chunkBlock?] using hcc
    rw [← this]
    exact List.mem_of_mem_filter (snd_mem_of_mem_enum hmem)

/-- Master structure of the full chunk stream: distinct insertions, blocks
drawn from the input comments, and the document lines preserved verbatim
(the whole document when the comment list is empty; the lines from the XML
declaration onward otherwise). -/
theorem insertChunks_props (output : String) (comments : List CommentBlock) :
    (chunkTags (insertChunks output comments)).Nodup
    ∧ (∀ ch ∈ insertChunks output comments, ∀ c : CommentBlock, chunkBlock? ch = some c → c ∈ comments)
    ∧ (comments.isEmpty = false → lineStrs (insertChunks output comments) = tailLines (splitLines output))
    ∧ (comments.isEmpty = true → lineStrs (insertChunks output comments) = splitLines output) := by
  by_cases hc : comments.isEmpty = true
  · rw [insertChunks, if_pos hc]
    refine ⟨?_, ?_, ?_, ?_⟩
    · rw [chunkTags_lines]
      exact List.nodup_nil
    · intro ch hch cc hcc
      rw [List.mem_map] at hch
      obtain ⟨s, _, he⟩ := hch
      rw [← he] at hcc
      exact absurd hcc (by simp [chunkBlock?])
    · intro hf
      rw [hc] at hf
      exact Bool.noConfusion hf
    · intro _
      exact lineStrs_lines _
  · rw [insertChunks, if_neg hc]
    have hregs : ∀ ic ∈ (partReg comments).enum, ic.2 ∈ comments :=
      fun ic hm => List.mem_of_mem_filter (snd_mem_of_mem_enum hm)
    have hinv := foldl_chunkLineStep_inv hregs (tailLines (splitLines output))
      { chunks := (partPre comments).enum.map (fun ic => Chunk.pre ic.1 ic.2), currentPath := [], inserted := [] }
      (chunkInv_start comments)
    obtain ⟨h1, h2, _, h4⟩ := hinv
    refine ⟨?_, ?_, ?_, ?_⟩
    · rw [chunkTags_append, chunkTags_enum_eofc, List.nodup_append]
      refine ⟨h1, nodup_tag_enum _ 1, ?_⟩
      intro p hp hp'
      rw [List.mem_map] at hp'
      obtain ⟨ic, _, he⟩ := hp'
      have hfst : p.1 = 1 := by rw [← he]
      cases h2 p hp with
      | inl h0 => rw [h0] at hfst; exact Nat.noConfusion hfst
      | inr h2' => rw [h2'] at hfst; omega
    · intro ch hch cc hcc
      rw [List.mem_append] at hch
      cases hch with
      | inl hm => exact h4 ch hm cc hcc
      | inr hm =>
        rw [List.mem_map] at hm
        obtain ⟨ic, hmem, he⟩ := hm
        rw [← he] at hcc
        have : ic.2 = cc := by simpa [chunkBlock?] using hcc
        rw [← this]
        exact List.mem_of_mem_filter (snd_mem_of_mem_enum hmem)
    · intro _
      rw [lineStrs_append, lineStrs_enum_eofc, List.append_nil, foldl_chunkLineStep_lines]
      rw [show ({ chunks := (partPre comments).enum.map (fun ic => Chunk.pre ic.1 ic.2), currentPath := [], inserted := [] } : ChunkState).chunks = (partPre comments).enum.map (fun ic => Chunk.pre ic.1 ic.2) from rfl]
      rw [lineStrs_enum_pre, List.nil_append]
    · intro hf
      rw [hf] at hc
      exact absurd rfl hc

theorem renderChunk_of_block {ch : Chunk} {c : CommentBlock} (h : chunkBlock? ch = some c) :
    renderChunk ch = c.content := by
  cases ch with
  | line s => exact absurd h (by simp [chunkBlock?])
  | pre i cb => rw [show cb = c by simpa [chunkBlock?] using h]; rfl
  | eofc i cb => rw [show cb = c by simpa [chunkBlock?] using h]; rfl
  | regB i cb => rw [show cb = c by simpa [chunkBlock?] using h]; rfl
  | regA i cb => rw [show cb = c by simpa [chunkBlock?] using h]; rfl

/-- C8 (confirmed).  Every extracted CommentBlock is inserted into the
merged output at most once: the tagged chunk stream renders to exactly the
insertComments result, the comment identities appearing in it are pairwise
distinct (so no block's content is emitted at two insertion points), and
each loop iteration — hence each opening or self-closing tag occurrence —
consumes at most one not-yet-inserted comment through the before-tag
mechanism. -/
theorem insertComments_each_comment_at_most_once (output : String) (comments : List CommentBlock) :
    insertComments output comments
      = Except.ok (joinLines (chunksRender (insertChunks output comments)))
    ∧ (chunkTags (insertChunks output comments)).Nodup
    ∧ (∀ (regs : List (Nat × CommentBlock)) (st : ChunkState) (line : String),
        ∃ ext, (chunkLineStep regs st line).chunks = st.chunks ++ ext ∧ countRegB ext ≤ 1) :=
  ⟨insertComments_eq_render output comments,
   (insertChunks_props output comments).1,
   fun regs st line => by
    obtain ⟨ext, he, hcnt, _⟩ := chunkLineStep_ext regs st line
    exact ⟨ext, he, hcnt⟩⟩

/-- C10 (confirmed).  When the XML declaration, if present at all, sits on
the first line of the document, insertComments never deletes or modifies a
document line: the chunk stream renders to the insertComments result, its
document lines are exactly the split input lines in order, and every other
chunk is a comment block of the input rendered verbatim as its content
lines. -/
theorem insertComments_preserves_lines (output : String) (comments : List CommentBlock)
    (h : ((splitLines output).findIdx? (fun l => strContains l "<?xml")).getD 0 = 0) :
    insertComments output comments
      = Except.ok (joinLines (chunksRender (insertChunks output comments)))
    ∧ lineStrs (insertChunks output comments) = splitLines output
    ∧ (∀ ch ∈ insertChunks output comments, ∀ c : CommentBlock,
        chunkBlock? ch = some c → c ∈ comments ∧ renderChunk ch = c.content) := by
  have htail : tailLines (splitLines output) = splitLines output := by
    rw [tailLines]
    cases hf : (splitLines output).findIdx? (fun l => strContains l "<?xml") with
    | none => rfl
    | some i =>
      rw [hf] at h
      simp only [Option.getD_some] at h
      rw [h]
      exact List.drop_zero _
  obtain ⟨_, hblocks, h3, h4⟩ := insertChunks_props output comments
  refine ⟨insertComments_eq_render output comments, ?_, ?_⟩
  · by_cases hc : comments.isEmpty = true
    · exact h4 hc
    · rw [h3 (Bool.eq_false_iff.mpr hc), htail]
  · intro ch hch c hcc
    exact ⟨hblocks ch hch c hcc, renderChunk_of_block hcc⟩

/-- A minimal serialized POM whose XML declaration is on the first line. -/
def demoPom : String :=
  "<?xml version=\"1.0\"?>\n<project>\n  <groupId>g</groupId>\n</project>"

/-- A comment block anchored before the groupId element. -/
def demoComment : CommentBlock :=
  { content := ["  <!-- pinned -->"], beforeXPath := "/project/groupId", afterXPath := "",
    lineNumber := 2, isInline := false, indentLevel := 2 }

/-- C10 witness: the first-line XML-declaration hypothesis holds for the
demo document, and the preservation theorem applies to it. -/
theorem insertComments_preserves_lines_witness :
    ((splitLines demoPom).findIdx? (fun l => strContains l "<?xml")).getD 0 = 0
    ∧ (insertComments demoPom [demoComment]
        = Except.ok (joinLines (chunksRender (insertChunks demoPom [demoComment])))
      ∧ lineStrs (insertChunks demoPom [demoComment]) = splitLines demoPom
      ∧ (∀ ch ∈ insertChunks demoPom [demoComment], ∀ c : CommentBlock,
          chunkBlock? ch = some c → c ∈ [demoComment] ∧ renderChunk ch = c.content)) :=
  ⟨rfl, insertComments_preserves_lines demoPom [demoComment] rfl⟩

end Pombump
